import Mathlib

/-!
Verification of the schedule extraction / change-detection / reminder engine
of `bot.py` (power-outage notification bot).

The development shallowly embeds the pure core of the source:

* `_html_table_to_matrix` (span-resolving table materializer),
* the schedule extractor `parse_all_schedules` (from the located table on),
* `_date_sort_key` / `schedule_hash` (SHA-256 fingerprint),
* `_dt_for_date` / `_interval_end_dt` / `is_off_now` / `next_event`,
* the per-tick reminder body of `reminders_loop`,
* the per-subscriber body of `process_site_once`,
* the state transitions of `choose_subqueue` and `cmd_stop`.

Modelling conventions:

* Python `dict`s become association lists (insertion ordered, unique keys);
  `dict.get(k, d)` becomes a first-match lookup with default.
* Timezone-aware `datetime` values become the record `DT` of wall-clock
  fields; comparison is modelled lexicographically on the fields (the bot
  pins a single fixed zone, so aware comparison coincides with wall-clock
  comparison apart from DST-gap corner cases which are outside the claims).
* `str.split` data extraction on shape-checked strings is modelled by
  direct character-pattern matching; on every string of the expected shape
  the two coincide, and all claims constrain inputs to those shapes.
* Python regular expressions (`TIME_RANGE_RE`, `DATE_RE`) are implemented
  as executable scanners over character lists; `\d`, `\s` and `\w` are
  modelled by their ASCII meanings (all inputs in the claims are ASCII
  in the relevant positions).
* `hashlib.sha256(...).hexdigest()` is implemented concretely (FIPS 180-4)
  over the code points of the serialized string (equal to its UTF-8 bytes
  on the ASCII serializations produced for well-formed schedules).
-/

/-! ## Table materializer (`_html_table_to_matrix`, bot.py lines 182-225)

A parsed `<td>/<th>` cell: its extracted text and the `rowspan`/`colspan`
attributes (defaulted to 1 by the source when absent). -/

structure Cell where
  text : String
  rowspan : Nat
  colspan : Nat
deriving DecidableEq, Repr

/-- A `<table>`: the list of `<tr>` rows, each a list of cells. -/
abbrev Table := List (List Cell)

/-- Key of the source's `span_map`: (row index, column index). -/
abbrev SpanKey := Nat × Nat

/-- Value of the source's `span_map`: `{"text": ..., "rows_left": ...}`. -/
abbrev SpanInfo := String × Nat

/-- The `span_map` dict, modelled as an association list. -/
abbrev SpanMap := List (SpanKey × SpanInfo)

/-- Dict lookup `span_map[(r, c)]` (`None` when absent). -/
def lookupSM (m : SpanMap) (k : SpanKey) : Option SpanInfo :=
  (m.find? (fun e => e.1 == k)).map (fun e => e.2)

/-- Dict deletion `del span_map[(r, c)]`. -/
def eraseSM (m : SpanMap) (k : SpanKey) : SpanMap :=
  m.filter (fun e => e.1 != k)

/-- Dict assignment `span_map[(r, c)] = v`. -/
def insertSM (m : SpanMap) (k : SpanKey) (v : SpanInfo) : SpanMap :=
  (k, v) :: eraseSM m k

/-- Number of `span_map` entries whose key lies in row `r` (used as the
fuel bound for the `fill_spans_until_free` while-loop). -/
def countRow (r : Nat) (m : SpanMap) : Nat :=
  (m.filter (fun e => e.1.1 == r)).length

/-- One fuelled run of the source's `fill_spans_until_free` while-loop:
while `(r_idx, c_idx)` is in `span_map`, append the carried text to the
current grid row, re-register the span for the next row when rows remain,
delete the entry and advance the column. -/
def fillGo : Nat → Nat → SpanMap → List String → Nat → SpanMap × List String × Nat
  | 0, _, m, row, c => (m, row, c)
  | fuel + 1, rIdx, m, row, c =>
    match lookupSM m (rIdx, c) with
    | none => (m, row, c)
    | some (txt, left) =>
      let m1 := if left > 1 then insertSM m (rIdx + 1, c) (txt, left - 1) else m
      let m2 := eraseSM m1 (rIdx, c)
      fillGo fuel rIdx m2 (row ++ [txt]) (c + 1)

/-- `fill_spans_until_free`: the loop consumes at most one row-`rIdx` entry
per iteration, so `m.length + 1` units of fuel always suffice. -/
def fillSpansUntilFree (rIdx : Nat) (m : SpanMap) (row : List String) (c : Nat) :
    SpanMap × List String × Nat :=
  fillGo (m.length + 1) rIdx m row c

/-- The per-cell loop of `_html_table_to_matrix`: for each cell, first fill
pending spans, then append the text `colspan` times, then (for `rowspan > 1`)
register the occupied columns for the next row. -/
def processCells (rIdx : Nat) :
    List Cell → SpanMap → List String → Nat → SpanMap × List String × Nat
  | [], m, row, c => (m, row, c)
  | cell :: rest, m, row, c =>
    let s1 := fillSpansUntilFree rIdx m row c
    let m1 := s1.1
    let row1 := s1.2.1
    let c1 := s1.2.2
    let row2 := row1 ++ List.replicate cell.colspan cell.text
    let c2 := c1 + cell.colspan
    let m2 :=
      if cell.rowspan > 1 then
        (List.range cell.colspan).foldl
          (fun mm j => insertSM mm (rIdx + 1, c1 + j) (cell.text, cell.rowspan - 1)) m1
      else m1
    processCells rIdx rest m2 row2 c2

/-- Processing of one `<tr>`: the cell loop followed by the trailing
`fill_spans_until_free()` call. -/
def processRow (rIdx : Nat) (cells : List Cell) (m : SpanMap) : SpanMap × List String :=
  let s1 := processCells rIdx cells m [] 0
  let s2 := fillSpansUntilFree rIdx s1.1 s1.2.1 s1.2.2
  (s2.1, s2.2.1)

/-- The row loop of `_html_table_to_matrix` (before padding). -/
def buildRows : Table → Nat → SpanMap → List (List String)
  | [], _, _ => []
  | cells :: rest, rIdx, m =>
    let s := processRow rIdx cells m
    s.2 :: buildRows rest (rIdx + 1) s.1

/-- `max((len(r) for r in grid), default=0)`. -/
def maxCols (grid : List (List String)) : Nat :=
  (grid.map List.length).foldl max 0

/-- `_html_table_to_matrix`: build the grid rows, then right-pad every row
with empty strings to the maximum row length. -/
def htmlTableToMatrix (t : Table) : List (List String) :=
  let grid := buildRows t 0 []
  let mc := maxCols grid
  grid.map (fun r => r ++ List.replicate (mc - r.length) "")

/-! ### Ghost instrumentation for the materializer

`placeCells`/`buildPlace` re-run exactly the recursion of
`processCells`/`buildRows` while additionally recording, for every source
cell, the anchor position (row, first occupied column) at which the
algorithm placed it.  `placeCells_fst` below proves the projection to the
real state is literally `processCells`. -/

def placeCells (rIdx : Nat) :
    List Cell → SpanMap → List String → Nat →
      (SpanMap × List String × Nat) × List (Nat × Nat × Cell)
  | [], m, row, c => ((m, row, c), [])
  | cell :: rest, m, row, c =>
    let s1 := fillSpansUntilFree rIdx m row c
    let m1 := s1.1
    let row1 := s1.2.1
    let c1 := s1.2.2
    let row2 := row1 ++ List.replicate cell.colspan cell.text
    let c2 := c1 + cell.colspan
    let m2 :=
      if cell.rowspan > 1 then
        (List.range cell.colspan).foldl
          (fun mm j => insertSM mm (rIdx + 1, c1 + j) (cell.text, cell.rowspan - 1)) m1
      else m1
    let r := placeCells rIdx rest m2 row2 c2
    (r.1, (rIdx, c1, cell) :: r.2)

/-- Anchor positions of all cells of the table, in processing order. -/
def buildPlace : Table → Nat → SpanMap → List (Nat × Nat × Cell)
  | [], _, _ => []
  | cells :: rest, rIdx, m =>
    let p := placeCells rIdx cells m [] 0
    let s2 := fillSpansUntilFree rIdx p.1.1 p.1.2.1 p.1.2.2
    p.2 ++ buildPlace rest (rIdx + 1) s2.1

/-- The anchor (row, column, cell) of every cell, per the algorithm. -/
def anchors (t : Table) : List (Nat × Nat × Cell) :=
  buildPlace t 0 []

/-- Executable completeness check: after each processed row, every
remaining `span_map` entry belongs to the next row (no span obligation of
the just-finished row was left unconsumed by a short row). -/
def rowsComplete : Table → Nat → SpanMap → Bool
  | [], _, _ => true
  | cells :: rest, rIdx, m =>
    let s := processRow rIdx cells m
    s.1.all (fun e => e.1.1 == rIdx + 1) && rowsComplete rest (rIdx + 1) s.1

/-- A table is complete when every row (its own cells together with the
spans carried down into it) tiles an initial segment of columns without a
gap, so that no pending span is silently dropped. -/
def tableComplete (t : Table) : Bool :=
  rowsComplete t 0 []

/-- The claim's hypothesis "declared rowspans and colspans fit within the
table's bounds": each cell, anchored where the algorithm places it, has
positive spans, its rowspan does not extend past the last row, and its
colspan does not extend past the grid width. -/
def spansFitB (t : Table) : Bool :=
  (anchors t).all (fun p =>
    1 ≤ p.2.2.rowspan && 1 ≤ p.2.2.colspan &&
    p.1 + p.2.2.rowspan ≤ t.length &&
    p.2.1 + p.2.2.colspan ≤ maxCols (buildRows t 0 []))

/-- Entry of a grid at (row, column), empty string when out of range. -/
def getE (g : List (List String)) (r c : Nat) : String :=
  (g.getD r []).getD c ""

/-- The rowspan-registration loop of one cell, as a standalone function
(identical to the `foldl` inside `processCells`). -/
def regSpans (rIdx c1 : Nat) (txt : String) (rl : Nat) (k : Nat) (m : SpanMap) : SpanMap :=
  (List.range k).foldl (fun mm j => insertSM mm (rIdx + 1, c1 + j) (txt, rl)) m

/-! ## Wall-clock datetimes, day schedules and the event projector
(`_dt_for_date`, `_interval_end_dt`, `is_off_now`, `next_event`,
bot.py lines 360-406) -/

/-- Decimal digit value of a character. -/
def dv (c : Char) : Nat := c.toNat - 48

/-- A timezone-aware `datetime` of the bot's single pinned zone, modelled
by its wall-clock fields. -/
structure DT where
  y : Nat
  m : Nat
  d : Nat
  hh : Nat
  mi : Nat
  ss : Nat
deriving DecidableEq, Repr

/-- Lexicographic packing of the fields; for valid datetimes (month, day,
hour, minute, second all < 100) comparing keys is comparing datetimes. -/
def DT.key (t : DT) : Nat :=
  ((((t.y * 100 + t.m) * 100 + t.d) * 100 + t.hh) * 100 + t.mi) * 100 + t.ss

instance : LE DT := ⟨fun a b => a.key ≤ b.key⟩

instance : LT DT := ⟨fun a b => a.key < b.key⟩

instance (a b : DT) : Decidable (a ≤ b) :=
  inferInstanceAs (Decidable (a.key ≤ b.key))

instance (a b : DT) : Decidable (a < b) :=
  inferInstanceAs (Decidable (a.key < b.key))

/-- Zero-padded two-digit decimal rendering (`%d`, `%m`, `%H`, `%M`, `%S`). -/
def fmt2 (n : Nat) : String :=
  ⟨[Nat.digitChar (n / 10), Nat.digitChar (n % 10)]⟩

/-- Zero-padded four-digit decimal rendering (`%Y`). -/
def fmt4 (n : Nat) : String :=
  ⟨[Nat.digitChar (n / 1000), Nat.digitChar (n / 100 % 10),
    Nat.digitChar (n / 10 % 10), Nat.digitChar (n % 10)]⟩

/-- `now.strftime("%d.%m.%Y")`. -/
def todayStr (t : DT) : String :=
  fmt2 t.d ++ "." ++ fmt2 t.m ++ "." ++ fmt4 t.y

/-- One outage range: `(start, end)` as `"HH:MM"` strings. -/
abbrev TimeRange := String × String

/-- A day-schedule: the dict `{date: [(start, end), ...]}`, insertion
ordered. -/
abbrev DaySched := List (String × List TimeRange)

/-- `schedule_by_day.get(d, [])`. -/
def schedGet (s : DaySched) (d : String) : List TimeRange :=
  match s.find? (fun p => p.1 == d) with
  | some p => p.2
  | none => []

/-- `d_str.split(".")` followed by `int(...)` on each part, modelled by
character-pattern matching (they agree on every `DD.MM.YYYY`-shaped
string, the only shape on which the source succeeds): returns
(day, month, year). -/
def parseDMY (s : String) : Nat × Nat × Nat :=
  match s.data with
  | [d1, d2, _, m1, m2, _, y1, y2, y3, y4] =>
    (dv d1 * 10 + dv d2, dv m1 * 10 + dv m2,
      ((dv y1 * 10 + dv y2) * 10 + dv y3) * 10 + dv y4)
  | _ => (0, 0, 0)

/-- `hhmm.split(":")` followed by `int(...)`, as for `parseDMY`: returns
(hour, minute). -/
def parseHM (s : String) : Nat × Nat :=
  match s.data with
  | [h1, h2, _, m1, m2] => (dv h1 * 10 + dv h2, dv m1 * 10 + dv m2)
  | _ => (0, 0)

/-- `_dt_for_date`. -/
def dtForDate (dStr hhmm : String) : DT :=
  let dmy := parseDMY dStr
  let hm := parseHM hhmm
  ⟨dmy.2.2, dmy.2.1, dmy.1, hm.1, hm.2, 0⟩

/-- `_interval_end_dt`: the `23:59` end-of-day sentinel is extended to the
day's final second. -/
def intervalEndDt (dStr hhmm : String) : DT :=
  let t := dtForDate dStr hhmm
  if hhmm == "23:59" then { t with ss := 59 } else t

/-- The containment test `st <= now <= en` shared by the two scans of
`is_off_now` and `next_event`. -/
def insideRange (todayS : String) (now : DT) (r : TimeRange) : Bool :=
  decide (dtForDate todayS r.1 ≤ now) && decide (now ≤ intervalEndDt todayS r.2)

/-- `is_off_now`. -/
def is_off_now (s : DaySched) (now : DT) : Bool :=
  (schedGet s (todayStr now)).any (insideRange (todayStr now) now)

/-- Python's `min` on a nonempty list: the first minimal element wins. -/
def minDT (c : DT) (cs : List DT) : DT :=
  cs.foldl (fun acc x => if x < acc then x else acc) c

/-- The start instants, over all days of the schedule, lying strictly
after `now` (the `candidates` list of `next_event`). -/
def futureStarts (s : DaySched) (now : DT) : List DT :=
  (s.flatMap (fun p => p.2.map (fun r => dtForDate p.1 r.1))).filter
    (fun st => decide (now < st))

/-- `next_event`: inside an outage, the end of the first containing range
of today, tagged `"ON"`; otherwise the minimum future start over all days,
tagged `"OFF"`; otherwise no event. -/
def next_event (s : DaySched) (now : DT) : Option DT × Option String :=
  match (schedGet s (todayStr now)).find? (insideRange (todayStr now) now) with
  | some r => (some (intervalEndDt (todayStr now) r.2), some "ON")
  | none =>
    match futureStarts s now with
    | [] => (none, none)
    | c :: cs => (some (minDT c cs), some "OFF")

/-! ## Calendar arithmetic and the reminder tick
(`reminders_loop` body, bot.py lines 455-496)

`datetime ± timedelta` is wall-clock Gregorian arithmetic on the fields;
we realize it through the standard civil-calendar day numbering. -/

/-- Day number of a Gregorian date (days since 0000-03-01, era-based civil
algorithm). -/
def toDayNumber (y m d : Nat) : Nat :=
  let y2 := if m ≤ 2 then y - 1 else y
  let era := y2 / 400
  let yoe := y2 % 400
  let mp := if 2 < m then m - 3 else m + 9
  let doy := (153 * mp + 2) / 5 + d - 1
  let doe := yoe * 365 + yoe / 4 - yoe / 100 + doy
  era * 146097 + doe

/-- Inverse of `toDayNumber`: (year, month, day) of a day number. -/
def ofDayNumber (z : Nat) : Nat × Nat × Nat :=
  let era := z / 146097
  let doe := z % 146097
  let yoe := (doe - doe / 1460 + doe / 36524 - doe / 146096) / 365
  let y := yoe + era * 400
  let doy := doe - (365 * yoe + yoe / 4 - yoe / 100)
  let mp := (5 * doy + 2) / 153
  let d := doy - (153 * mp + 2) / 5 + 1
  let m := if mp < 10 then mp + 3 else mp - 9
  (if m ≤ 2 then y + 1 else y, m, d)

/-- Seconds on the absolute wall-clock timeline. -/
def DT.toSecs (t : DT) : Nat :=
  toDayNumber t.y t.m t.d * 86400 + t.hh * 3600 + t.mi * 60 + t.ss

/-- Datetime of an absolute second count. -/
def DT.ofSecs (n : Nat) : DT :=
  let ymd := ofDayNumber (n / 86400)
  let rem := n % 86400
  ⟨ymd.1, ymd.2.1, ymd.2.2, rem / 3600, rem % 3600 / 60, rem % 60⟩

/-- `dt - timedelta(minutes=k)`. -/
def subMinutes (t : DT) (k : Nat) : DT := DT.ofSecs (t.toSecs - k * 60)

/-- `dt + timedelta(seconds=k)`. -/
def addSeconds (t : DT) (k : Nat) : DT := DT.ofSecs (t.toSecs + k)

/-- `now.strftime("%Y-%m-%d")`. -/
def fmtYMD (t : DT) : String :=
  fmt4 t.y ++ "-" ++ fmt2 t.m ++ "-" ++ fmt2 t.d

/-- `event_dt.isoformat()` under the fixed-offset model of the pinned
zone (the offset suffix is a constant and only feeds the dedup key). -/
def dtIso (t : DT) : String :=
  fmt4 t.y ++ "-" ++ fmt2 t.m ++ "-" ++ fmt2 t.d ++ "T" ++
    fmt2 t.hh ++ ":" ++ fmt2 t.mi ++ ":" ++ fmt2 t.ss ++ "+03:00"

/-- `PREALERT_WINDOW_SECONDS = 120`. -/
def PREALERT_WINDOW_SECONDS : Nat := 120

/-- `DEFAULT_NOTICE_MINUTES = 10`. -/
def DEFAULT_NOTICE_MINUTES : Nat := 10

/-- `ALLOWED_NOTICE = {5, 10, 30}`. -/
def ALLOWED_NOTICE : List Nat := [5, 10, 30]

/-- The trigger-window test `notify_time <= now < notify_time + window`. -/
def inWindow (evDt : DT) (notice : Nat) (now : DT) : Bool :=
  decide (subMinutes evDt notice ≤ now) &&
    decide (now < addSeconds (subMinutes evDt notice) PREALERT_WINDOW_SECONDS)

/-- The dedup key
`f"{day_key}|{subqueue}|{event_type}|{event_dt.isoformat()}|{notice}"`. -/
def remKey (dayKey sq evTy : String) (evDt : DT) (notice : Nat) : String :=
  dayKey ++ "|" ++ sq ++ "|" ++ evTy ++ "|" ++ dtIso evDt ++ "|" ++ toString notice

/-- The reminder message text. -/
def reminderText (evTy : String) (notice : Nat) (evDt : DT) : String :=
  let hhmm := fmt2 evDt.hh ++ ":" ++ fmt2 evDt.mi
  if evTy == "OFF" then
    "⛔️ За " ++ toString notice ++ " хвилин можливе відключення світла (о " ++ hhmm ++ ")"
  else
    "💡 За " ++ toString notice ++ " хвилин очікується відновлення світла (о " ++ hhmm ++ ")"

/-- One tick of the `reminders_loop` body for one subscriber: given the
subscriber's subqueue, resolved cached schedule, configured lead-time and
delivered-keys set, and the tick instant `now`, returns the updated
delivered-keys set and the notification sent (if any). -/
def remTick (sq : String) (s : DaySched) (noticeRaw : Nat) (notified : List String)
    (now : DT) : List String × Option String :=
  if s.isEmpty then (notified, none)
  else
    let notice := if noticeRaw ∈ ALLOWED_NOTICE then noticeRaw else DEFAULT_NOTICE_MINUTES
    let dayKey := fmtYMD now
    match next_event s now with
    | (some evDt, some evTy) =>
      if inWindow evDt notice now then
        let key := remKey dayKey sq evTy evDt notice
        if key ∈ notified then (notified, none)
        else (key :: notified, some (reminderText evTy notice evDt))
      else (notified, none)
    | _ => (notified, none)

/-- Repeated ticks: fold `remTick` over a list of tick instants, counting
the notifications emitted. -/
def runRem (sq : String) (s : DaySched) (notice : Nat) :
    List String → List DT → List String × Nat
  | notified, [] => (notified, 0)
  | notified, t :: ts =>
    let r := remTick sq s notice notified t
    let rest := runRem sq s notice r.1 ts
    (rest.1, (if r.2.isSome then 1 else 0) + rest.2)

/-! ## Schedule fingerprint (`_date_sort_key`, `schedule_hash`,
bot.py lines 319-334)

`_date_sort_key` splits on `"."` and converts to `int`, falling back to
`(9999, 99, 99)` on any failure; modelled by character-pattern matching,
which agrees on every string where the source succeeds with two-digit
day/month and four-digit year (the only date shape the extractor ever
stores). -/

def dateSortKey (dstr : String) : Nat × Nat × Nat :=
  match dstr.data with
  | [d1, d2, '.', m1, m2, '.', y1, y2, y3, y4] =>
    if d1.isDigit && d2.isDigit && m1.isDigit && m2.isDigit &&
        y1.isDigit && y2.isDigit && y3.isDigit && y4.isDigit then
      (((dv y1 * 10 + dv y2) * 10 + dv y3) * 10 + dv y4,
        dv m1 * 10 + dv m2, dv d1 * 10 + dv d2)
    else (9999, 99, 99)
  | _ => (9999, 99, 99)

/-- Packing of a `(year, month, day)` sort key; as the month and day
components are always ≤ 99, comparing packings is exactly Python's
lexicographic tuple comparison. -/
def keyNat (t : Nat × Nat × Nat) : Nat :=
  (t.1 * 100 + t.2.1) * 100 + t.2.2

/-- The chronological order `sorted(...)` sorts dates by. -/
def dateLE (a b : String) : Prop :=
  keyNat (dateSortKey a) ≤ keyNat (dateSortKey b)

instance (a b : String) : Decidable (dateLE a b) :=
  inferInstanceAs (Decidable (_ ≤ _))

/-- `sorted(schedule_by_day.keys(), key=_date_sort_key)` (Python's sort is
stable; insertion sort implements the same stable-sort semantics and is
executable in the kernel). -/
def sortedDates (s : DaySched) : List String :=
  (s.map Prod.fst).insertionSort dateLE

/-- The `parts` list of `schedule_hash`: each date (chronological order)
followed by its ranges in stored order as `start-end` tokens. -/
def hashParts (s : DaySched) : List String :=
  (sortedDates s).flatMap (fun d => d :: (schedGet s d).map (fun r => r.1 ++ "-" ++ r.2))

/-- `"|".join(parts)`. -/
def joinBar : List String → String
  | [] => ""
  | p :: ps => ps.foldl (fun acc q => acc ++ "|" ++ q) p

/-- The canonical serialization `raw` that `schedule_hash` digests. -/
def scheduleRaw (s : DaySched) : String := joinBar (hashParts s)

/-! SHA-256 (FIPS 180-4), executable over byte lists. -/

def w32 (n : Nat) : Nat := n % 4294967296

def rotr32 (k x : Nat) : Nat := w32 ((x >>> k) ||| (x <<< (32 - k)))

def shaCh (x y z : Nat) : Nat := (x &&& y) ^^^ ((x ^^^ 4294967295) &&& z)

def shaMaj (x y z : Nat) : Nat := (x &&& y) ^^^ (x &&& z) ^^^ (y &&& z)

def shaS0 (x : Nat) : Nat := rotr32 2 x ^^^ rotr32 13 x ^^^ rotr32 22 x

def shaS1 (x : Nat) : Nat := rotr32 6 x ^^^ rotr32 11 x ^^^ rotr32 25 x

def shals0 (x : Nat) : Nat := rotr32 7 x ^^^ rotr32 18 x ^^^ (x >>> 3)

def shals1 (x : Nat) : Nat := rotr32 17 x ^^^ rotr32 19 x ^^^ (x >>> 10)

def shaK : List Nat :=
  [0x428A2F98, 0x71374491, 0xB5C0FBCF, 0xE9B5DBA5, 0x3956C25B, 0x59F111F1,
   0x923F82A4, 0xAB1C5ED5, 0xD807AA98, 0x12835B01, 0x243185BE, 0x550C7DC3,
   0x72BE5D74, 0x80DEB1FE, 0x9BDC06A7, 0xC19BF174, 0xE49B69C1, 0xEFBE4786,
   0x0FC19DC6, 0x240CA1CC, 0x2DE92C6F, 0x4A7484AA, 0x5CB0A9DC, 0x76F988DA,
   0x983E5152, 0xA831C66D, 0xB00327C8, 0xBF597FC7, 0xC6E00BF3, 0xD5A79147,
   0x06CA6351, 0x14292967, 0x27B70A85, 0x2E1B2138, 0x4D2C6DFC, 0x53380D13,
   0x650A7354, 0x766A0ABB, 0x81C2C92E, 0x92722C85, 0xA2BFE8A1, 0xA81A664B,
   0xC24B8B70, 0xC76C51A3, 0xD192E819, 0xD6990624, 0xF40E3585, 0x106AA070,
   0x19A4C116, 0x1E376C08, 0x2748774C, 0x34B0BCB5, 0x391C0CB3, 0x4ED8AA4A,
   0x5B9CCA4F, 0x682E6FF3, 0x748F82EE, 0x78A5636F, 0x84C87814, 0x8CC70208,
   0x90BEFFFA, 0xA4506CEB, 0xBEF9A3F7, 0xC67178F2]

def shaH0 : List Nat :=
  [0x6A09E667, 0xBB67AE85, 0x3C6EF372, 0xA54FF53A,
   0x510E527F, 0x9B05688C, 0x1F83D9AB, 0x5BE0CD19]

/-- Big-endian 8-byte rendering of the bit length. -/
def be8 (n : Nat) : List Nat :=
  [(n >>> 56) &&& 255, (n >>> 48) &&& 255, (n >>> 40) &&& 255, (n >>> 32) &&& 255,
   (n >>> 24) &&& 255, (n >>> 16) &&& 255, (n >>> 8) &&& 255, n &&& 255]

/-- Merkle-Damgard padding to a multiple of 64 bytes. -/
def shaPad (msg : List Nat) : List Nat :=
  msg ++ 0x80 :: (List.replicate ((119 - msg.length % 64) % 64) 0 ++ be8 (msg.length * 8))

def chunksGo : Nat → List Nat → List (List Nat)
  | 0, _ => []
  | _, [] => []
  | fuel + 1, l => l.take 64 :: chunksGo fuel (l.drop 64)

/-- Split into 64-byte blocks. -/
def chunks64 (l : List Nat) : List (List Nat) := chunksGo (l.length + 1) l

/-- The 64-word message schedule of one block. -/
def shaW (block : List Nat) : List Nat :=
  let w16 := (List.range 16).map (fun i =>
    ((block.getD (4 * i) 0) <<< 24) + ((block.getD (4 * i + 1) 0) <<< 16) +
      ((block.getD (4 * i + 2) 0) <<< 8) + block.getD (4 * i + 3) 0)
  (List.range 48).foldl (fun w _ =>
    w ++ [w32 (shals1 (w.getD (w.length - 2) 0) + w.getD (w.length - 7) 0 +
      shals0 (w.getD (w.length - 15) 0) + w.getD (w.length - 16) 0)]) w16

/-- Working variables of the compression loop. -/
structure ShaSt where
  a : Nat
  b : Nat
  c : Nat
  d : Nat
  e : Nat
  f : Nat
  g : Nat
  h : Nat

/-- Compression of one 64-byte block. -/
def shaCompress (hs : List Nat) (block : List Nat) : List Nat :=
  let w := shaW block
  let init : ShaSt := ⟨hs.getD 0 0, hs.getD 1 0, hs.getD 2 0, hs.getD 3 0,
    hs.getD 4 0, hs.getD 5 0, hs.getD 6 0, hs.getD 7 0⟩
  let fin := (List.range 64).foldl (fun st i =>
    let t1 := w32 (st.h + shaS1 st.e + shaCh st.e st.f st.g +
      shaK.getD i 0 + w.getD i 0)
    let t2 := w32 (shaS0 st.a + shaMaj st.a st.b st.c)
    ⟨w32 (t1 + t2), st.a, st.b, st.c, w32 (st.d + t1), st.e, st.f, st.g⟩) init
  [w32 (hs.getD 0 0 + fin.a), w32 (hs.getD 1 0 + fin.b), w32 (hs.getD 2 0 + fin.c),
   w32 (hs.getD 3 0 + fin.d), w32 (hs.getD 4 0 + fin.e), w32 (hs.getD 5 0 + fin.f),
   w32 (hs.getD 6 0 + fin.g), w32 (hs.getD 7 0 + fin.h)]

/-- Lowercase hex rendering of one 32-bit word. -/
def hexWord (n : Nat) : String :=
  ⟨(List.range 8).map (fun i => Nat.digitChar ((n >>> (28 - 4 * i)) &&& 15))⟩

/-- `hashlib.sha256(bytes).hexdigest()`. -/
def sha256Hex (msg : List Nat) : String :=
  String.join (((chunks64 (shaPad msg)).foldl shaCompress shaH0).map hexWord)

/-- UTF-8 encoding of one code point. -/
def utf8Bytes (c : Char) : List Nat :=
  let n := c.toNat
  if n < 128 then [n]
  else if n < 2048 then [192 + n / 64, 128 + n % 64]
  else if n < 65536 then [224 + n / 4096, 128 + n / 64 % 64, 128 + n % 64]
  else [240 + n / 262144, 128 + n / 4096 % 64, 128 + n / 64 % 64, 128 + n % 64]

/-- `s.encode("utf-8")`. -/
def strBytes (s : String) : List Nat := s.data.flatMap utf8Bytes

/-- `schedule_hash`. -/
def schedule_hash (s : DaySched) : String := sha256Hex (strBytes (scheduleRaw s))

/-! ### Well-formedness and a decoder for the serialization

`decodeRaw` recovers a schedule from its serialization; it exists only to
prove that `scheduleRaw` is injective on well-formed schedules (the "up to
SHA-256 collisions" content of the fingerprint claim). -/

/-- The string has the exact `HH:MM` shape of `TIME_RANGE_RE` captures. -/
def isTimeStr (t : String) : Bool :=
  match t.data with
  | [h1, h2, ':', m1, m2] => h1.isDigit && h2.isDigit && m1.isDigit && m2.isDigit
  | _ => false

/-- The string has the exact `DD.MM.YYYY` shape of `DATE_RE` captures. -/
def isDateStr (dstr : String) : Bool :=
  match dstr.data with
  | [d1, d2, '.', m1, m2, '.', y1, y2, y3, y4] =>
    d1.isDigit && d2.isDigit && m1.isDigit && m2.isDigit &&
      y1.isDigit && y2.isDigit && y3.isDigit && y4.isDigit
  | _ => false

/-- A well-formed day-schedule: distinct date keys (it models a dict),
`DD.MM.YYYY` dates and `HH:MM` range endpoints — exactly what the
extractor produces. -/
def WFsched (s : DaySched) : Prop :=
  (s.map Prod.fst).Nodup ∧
    ∀ p ∈ s, isDateStr p.1 = true ∧ ∀ r ∈ p.2, isTimeStr r.1 = true ∧ isTimeStr r.2 = true

instance (s : DaySched) : Decidable (WFsched s) := by
  unfold WFsched
  infer_instance

/-- Dict lookup `schedule_by_day[d]` as an option (`none` when absent). -/
def lookupOpt (s : DaySched) (d : String) : Option (List TimeRange) :=
  (s.find? (fun p => p.1 == d)).map (fun p => p.2)

/-- The schedule in canonical order: chronologically sorted dates paired
with their stored range lists. -/
def canonSched (s : DaySched) : List (String × List TimeRange) :=
  (sortedDates s).map (fun d => (d, schedGet s d))

/-- Split a character list on a separator (inverse of the join). -/
def splitOnChar (sep : Char) : List Char → List (List Char)
  | [] => [[]]
  | c :: cs =>
    if c = sep then [] :: splitOnChar sep cs
    else
      match splitOnChar sep cs with
      | [] => [[c]]
      | p :: ps => (c :: p) :: ps

/-- Recover `(start, end)` from a `HH:MM-HH:MM` token. -/
def tokenToPair (p : List Char) : TimeRange := (⟨p.take 5⟩, ⟨p.drop 6⟩)

/-- Group the serialized parts back into (date, ranges) entries: each date
part opens a group collecting the token parts that follow it. -/
def decodeParts : List (List Char) → List (String × List TimeRange)
  | [] => []
  | p :: rest =>
    let toks := rest.takeWhile (fun q => !(isDateStr ⟨q⟩))
    let rest2 := rest.dropWhile (fun q => !(isDateStr ⟨q⟩))
    (⟨p⟩, toks.map tokenToPair) :: decodeParts rest2
termination_by l => l.length
decreasing_by
  simp only [List.length_cons]
  exact Nat.lt_succ_of_le ((List.dropWhile_sublist _).length_le)

/-- Decode a serialization back into canonical form. -/
def decodeRaw (s : String) : List (String × List TimeRange) :=
  if s = "" then [] else decodeParts (splitOnChar '|' s.data)

/-- The serialized parts of a list of (date, ranges) entries; `hashParts`
is exactly `partsOf` of the canonically ordered schedule. -/
def partsOf (l : List (String × List TimeRange)) : List String :=
  l.flatMap (fun p => p.1 :: p.2.map (fun r => r.1 ++ "-" ++ r.2))

/-! ## The schedule extractor (`parse_all_schedules`, bot.py lines 238-316)

The regular expressions `TIME_RANGE_RE` and `DATE_RE` are implemented as
executable scanners (both patterns are fixed-shape with no backtracking:
`\s*` is maximal-munch and `-` is not whitespace); `\d`, `\s`, `\w` use
their ASCII meanings. -/

/-- Python ASCII `\s`. -/
def isSpaceChar (c : Char) : Bool :=
  c = ' ' || c = '\t' || c = '\n' || c = '\r' || c = '\x0b' || c = '\x0c'

/-- Python ASCII `\w`. -/
def isWordChar (c : Char) : Bool := c.isAlphanum || c = '_'

/-- Strip leading and trailing whitespace from a character list. -/
def trimChars (l : List Char) : List Char :=
  ((l.dropWhile isSpaceChar).reverse.dropWhile isSpaceChar).reverse

/-- Python `str.strip()` (on the ASCII whitespace the inputs use). -/
def strTrim (s : String) : String := ⟨trimChars s.data⟩

/-- One attempted match of `(\d{2}:\d{2})\s*-\s*(\d{2}:\d{2})` at the
current position; returns the two captures and the rest of the input. -/
def matchTR : List Char → Option (String × String × List Char)
  | h1 :: h2 :: ':' :: m1 :: m2 :: rest =>
    if h1.isDigit && h2.isDigit && m1.isDigit && m2.isDigit then
      match rest.dropWhile isSpaceChar with
      | '-' :: rest3 =>
        match rest3.dropWhile isSpaceChar with
        | a1 :: a2 :: ':' :: b1 :: b2 :: rest5 =>
          if a1.isDigit && a2.isDigit && b1.isDigit && b2.isDigit then
            some (⟨[h1, h2, ':', m1, m2]⟩, ⟨[a1, a2, ':', b1, b2]⟩, rest5)
          else none
        | _ => none
      | _ => none
    else none
  | _ => none

/-- The scan of `re.findall`: try each position left to right, resuming
after the end of each non-overlapping match (every match consumes at least
one character, so the input length is adequate fuel). -/
def findTRGo : Nat → List Char → List (String × String)
  | 0, _ => []
  | _, [] => []
  | fuel + 1, c :: cs =>
    match matchTR (c :: cs) with
    | some (a, b, rest) => (a, b) :: findTRGo fuel rest
    | none => findTRGo fuel cs

/-- `TIME_RANGE_RE.findall(cell_text)`. -/
def timeRangeFindall (s : String) : List (String × String) :=
  findTRGo (s.data.length + 1) s.data

/-- One attempted match of `\d{2}\.\d{2}\.\d{4}` at the current position. -/
def matchDate10 : List Char → Option (String × List Char)
  | d1 :: d2 :: '.' :: m1 :: m2 :: '.' :: y1 :: y2 :: y3 :: y4 :: rest =>
    if d1.isDigit && d2.isDigit && m1.isDigit && m2.isDigit &&
        y1.isDigit && y2.isDigit && y3.isDigit && y4.isDigit then
      some (⟨[d1, d2, '.', m1, m2, '.', y1, y2, y3, y4]⟩, rest)
    else none
  | _ => none

/-- `DATE_RE.search`: find the first `\b`-delimited date, scanning left to
right (`prev` is the character before the current position). -/
def dateSearchGo : Option Char → List Char → Option String
  | _, [] => none
  | prev, c :: cs =>
    let boundaryBefore :=
      match prev with
      | none => true
      | some p => !(isWordChar p)
    match (if boundaryBefore then matchDate10 (c :: cs) else none) with
    | some (dstr, rest) =>
      let boundaryAfter :=
        match rest with
        | [] => true
        | r :: _ => !(isWordChar r)
      if boundaryAfter then some dstr else dateSearchGo (some c) cs
    | none => dateSearchGo (some c) cs

/-- `_parse_date_from_row`: first non-blank cell on which `DATE_RE.search`
succeeds. -/
def parseDateFromRow : List String → Option String
  | [] => none
  | cell :: rest =>
    if cell = "" then parseDateFromRow rest
    else
      match dateSearchGo none cell.data with
      | some d => some d
      | none => parseDateFromRow rest

/-- Substring test (`pat in s` for character lists). -/
def listContainsSub (needle : List Char) : List Char → Bool
  | [] => needle.isEmpty
  | c :: cs => needle.isPrefixOf (c :: cs) || listContainsSub needle cs

/-- Python `pat in s`. -/
def containsSub (s pat : String) : Bool := listContainsSub pat.data s.data

/-- A fetched page, with the non-repository pieces abstracted as inputs:
the `Оновлено: ...` marker that `UPDATE_RE.search` extracts from the raw
text, and the `<table>` structures BeautifulSoup yields. -/
structure Page where
  updateMarker : Option String
  tables : List Table

/-- `" "`-joined text of a table, the model of `t.get_text(" ", strip=True)`
used only by the substring checks of the table selector. -/
def tableText (t : Table) : String :=
  match t.flatMap (fun row => row.map Cell.text) with
  | [] => ""
  | p :: ps => ps.foldl (fun a q => a ++ " " ++ q) p

/-- The table-selection loop: the first table whose text mentions
`Підчерга`, `1.1` and `6.2`. -/
def findScheduleTable (page : Page) : Option Table :=
  page.tables.find? (fun t =>
    containsSub (tableText t) "Підчерга" && containsSub (tableText t) "1.1" &&
      containsSub (tableText t) "6.2")

/-- `[f"{i}.{j}" for i in range(1, 7) for j in (1, 2)]`. -/
def subqueues : List String :=
  ["1.1", "1.2", "2.1", "2.2", "3.1", "3.2", "4.1", "4.2", "5.1", "5.2", "6.1", "6.2"]

/-- The `found` pair list of one row: every (label, column) with an
exact-trimmed match, grouped by label, counted with multiplicity. -/
def rowFound (row : List String) : List (String × Nat) :=
  subqueues.flatMap (fun sq =>
    row.enum.filterMap (fun p => if strTrim p.2 == sq then some (sq, p.1) else none))

/-- The header-row scan: the first row with at least 6 found pairs. -/
def findHeader : List (List String) → Nat → Option (Nat × List (String × Nat))
  | [], _ => none
  | row :: rest, rIdx =>
    let found := rowFound row
    if 6 ≤ found.length then some (rIdx, found) else findHeader rest (rIdx + 1)

/-- `col_map`: dict built by `col_map[sq] = c_i` over the found pairs
(first insertion fixes the position, later assignments overwrite the
value). -/
def buildColMap (found : List (String × Nat)) : List (String × Nat) :=
  found.foldl (fun m p =>
    if (m.find? (fun q => q.1 == p.1)).isSome then
      m.map (fun q => if q.1 == p.1 then (q.1, p.2) else q)
    else m ++ [p]) []

/-- `schedules_all.get(subqueue, {})`. -/
def schedLookup (sch : List (String × DaySched)) (sq : String) : DaySched :=
  match sch.find? (fun p => p.1 == sq) with
  | some p => p.2
  | none => []

/-- `schedules[sq].setdefault(current_date, [])` followed by appending the
extracted intervals. -/
def updDay (dm : DaySched) (d : String) (ivs : List TimeRange) : DaySched :=
  if (dm.find? (fun q => q.1 == d)).isSome then
    dm.map (fun q => if q.1 == d then (q.1, q.2 ++ ivs) else q)
  else dm ++ [(d, ivs)]

/-- Update one entity's day map inside the schedules dict. -/
def updSched (sch : List (String × DaySched)) (sq : String) (d : String)
    (ivs : List TimeRange) : List (String × DaySched) :=
  sch.map (fun p => if p.1 == sq then (p.1, updDay p.2 d ivs) else p)

/-- The inner per-entity loop of one data row (bot.py lines 287-302). -/
def processSchedRow (colMap : List (String × Nat)) (row : List String)
    (curDate : String) (sch : List (String × DaySched)) : List (String × DaySched) :=
  colMap.foldl (fun sch p =>
    if p.2 < row.length then
      let cellText := strTrim (row.getD p.2 "")
      if cellText = "" then sch
      else if containsSub cellText "Очікується" then sch
      else
        let ivs := timeRangeFindall cellText
        if ivs.isEmpty then sch
        else updSched sch p.1 curDate ivs
    else sch) sch

/-- The row walk below the header, carrying the current date forward;
rows before any date are skipped. -/
def extractRows (colMap : List (String × Nat)) :
    List (List String) → Option String → List (String × DaySched) → List (String × DaySched)
  | [], _, sch => sch
  | row :: rest, curDate, sch =>
    let curDate2 :=
      match parseDateFromRow row with
      | some d => some d
      | none => curDate
    match curDate2 with
    | none => extractRows colMap rest curDate2 sch
    | some d => extractRows colMap rest curDate2 (processSchedRow colMap row d sch)

/-- First-occurrence deduplication of one day's intervals. -/
def dedupKeepGo (seen : List TimeRange) : List TimeRange → List TimeRange
  | [] => []
  | x :: xs => if x ∈ seen then dedupKeepGo seen xs else x :: dedupKeepGo (x :: seen) xs

/-- The per-day dedup pass (bot.py lines 305-313). -/
def dedupSchedules (sch : List (String × DaySched)) : List (String × DaySched) :=
  sch.map (fun p => (p.1, p.2.map (fun q => (q.1, dedupKeepGo [] q.2))))

/-- `{sq: dm for sq, dm in schedules.items() if any(dm.values())}`. -/
def filterNonEmpty (sch : List (String × DaySched)) : List (String × DaySched) :=
  sch.filter (fun p => p.2.any (fun q => !q.2.isEmpty))

/-- `parse_all_schedules`, from the located table onward. -/
def parse_all_schedules (page : Page) : Option String × List (String × DaySched) :=
  let marker := page.updateMarker
  match findScheduleTable page with
  | none => (marker, [])
  | some table =>
    let matrix := htmlTableToMatrix table
    if matrix.isEmpty then (marker, [])
    else
      match findHeader matrix 0 with
      | none => (marker, [])
      | some (hIdx, found) =>
        let colMap := buildColMap found
        if colMap.isEmpty then (marker, [])
        else
          let initSch := colMap.map (fun p => (p.1, ([] : DaySched)))
          let sch := extractRows colMap (matrix.drop (hIdx + 1)) none initSch
          (marker, filterNonEmpty (dedupSchedules sch))

/-- Modelled from the spec (C6): "the header row is the first grid row
containing at least a majority of the known entity labels (1.1..6.2) as
exact-trimmed cell matches" — at least 7 of the 12 distinct labels. -/
def majorityDistinct (row : List String) : Bool :=
  7 ≤ (subqueues.filter (fun sq => row.any (fun cell => strTrim cell == sq))).length

/-! ## Global subscriber state and its transitions
(`process_site_once`, `choose_subqueue`, `cmd_stop` / the stop button;
bot.py lines 51-59, 412-442, 541-553, 629-667, 690-699) -/

/-- The module-level subscriber dicts, as insertion-ordered maps keyed by
`chat_id`. -/
structure BotState where
  allUsers : List Nat
  subqueue : List (Nat × String)
  notice : List (Nat × Nat)
  lastHash : List (Nat × String)
  lastSchedule : List (Nat × DaySched)
  lastMarker : List (Nat × Option String)
  notifiedKeys : List (Nat × List String)
deriving Repr

/-- Dict lookup `m.get(k)`. -/
def alookup {β : Type} (m : List (Nat × β)) (k : Nat) : Option β :=
  (m.find? (fun e => e.1 == k)).map (fun e => e.2)

/-- Dict assignment `m[k] = v` (existing key keeps its position). -/
def aset {β : Type} (m : List (Nat × β)) (k : Nat) (v : β) : List (Nat × β) :=
  if (m.find? (fun e => e.1 == k)).isSome then
    m.map (fun e => if e.1 == k then (k, v) else e)
  else m ++ [(k, v)]

/-- `m.setdefault(k, v)` (as a state transition). -/
def asetdefault {β : Type} (m : List (Nat × β)) (k : Nat) (v : β) : List (Nat × β) :=
  if (m.find? (fun e => e.1 == k)).isSome then m else m ++ [(k, v)]

/-- `m.pop(k, None)` (as a state transition). -/
def apop {β : Type} (m : List (Nat × β)) (k : Nat) : List (Nat × β) :=
  m.filter (fun e => e.1 != k)

/-- `register_user`. -/
def register_user (chat : Nat) (st : BotState) : BotState :=
  { st with
    allUsers := if chat ∈ st.allUsers then st.allUsers else st.allUsers ++ [chat],
    notice := asetdefault st.notice chat DEFAULT_NOTICE_MINUTES }

/-- `format_schedule_all_days`. -/
def format_schedule_all_days (subqueue : String) (sbd : DaySched)
    (marker : Option String) : String :=
  if sbd.isEmpty then
    let msg := "Графік (ВІДКЛЮЧЕННЯ) для " ++ subqueue ++
      ":\n⚠️ Інтервали не знайдено (можливо “Очікується” або змінилась таблиця)."
    match marker with
    | some u => msg ++ "\n\n" ++ u
    | none => msg
  else
    let lines := (sortedDates sbd).flatMap (fun d =>
      (d ++ " (ВІДКЛЮЧЕННЯ):") ::
        ((schedGet sbd d).map (fun r => "• " ++ r.1 ++ "–" ++ r.2) ++ [""]))
    let msg :=
      (match lines with
      | [] => ""
      | p :: ps => strTrim (ps.foldl (fun a q => a ++ "\n" ++ q) p))
    match marker with
    | some u => msg ++ "\n\n" ++ u
    | none => msg

/-- The change-notification text of `process_site_once`. -/
def changeText (sq : String) (sbd : DaySched) (marker : Option String) : String :=
  "🔄 Оновився графік по підчерзі " ++ sq ++ "\n\n" ++
    format_schedule_all_days sq sbd marker

/-- The per-subscriber body of `process_site_once` (bot.py lines 422-442):
cache the fresh schedule and marker, then compare fingerprints — on a
change (with updates enabled) record the new hash, reset the
delivered-keys set and send one change notification; on first observation
record the hash and `setdefault` the delivered-keys set, silently. -/
def processSiteUserStep (sendUpdates : Bool) (schedulesAll : List (String × DaySched))
    (marker : Option String) (st : BotState) (chat : Nat) (sq : String) :
    BotState × List (Nat × String) :=
  let sched := schedLookup schedulesAll sq
  let st := { st with
    lastSchedule := aset st.lastSchedule chat sched,
    lastMarker := aset st.lastMarker chat marker }
  let newHash := schedule_hash sched
  match alookup st.lastHash chat with
  | none =>
    ({ st with lastHash := aset st.lastHash chat newHash,
               notifiedKeys := asetdefault st.notifiedKeys chat [] }, [])
  | some oldHash =>
    if sendUpdates && newHash != oldHash then
      ({ st with lastHash := aset st.lastHash chat newHash,
                 notifiedKeys := aset st.notifiedKeys chat [] },
        [(chat, changeText sq sched marker)])
    else (st, [])

/-- `process_site_once` over all subscribed users (the fetch and parse are
passed in as `marker`/`schedulesAll`; the global schedule cache is
superseded by them). -/
def process_site_once (sendUpdates : Bool) (marker : Option String)
    (schedulesAll : List (String × DaySched)) (st : BotState) :
    BotState × List (Nat × String) :=
  st.subqueue.foldl (fun acc e =>
    let r := processSiteUserStep sendUpdates schedulesAll marker acc.1 e.1 e.2
    (r.1, acc.2 ++ r.2)) (st, [])

/-- `choose_subqueue` (bot.py lines 629-667).  `refresh` is the outcome of
the `process_site_once(send_updates=False)` call inside the `try`: `some
(marker, schedules)` when the fetch+parse succeeded, `none` when it raised
(in which case it raised before mutating any per-user state). -/
def choose_subqueue (chat : Nat) (sq : String)
    (refresh : Option (Option String × List (String × DaySched))) (st : BotState) :
    BotState × List String :=
  let st := register_user chat st
  let st := { st with
    subqueue := aset st.subqueue chat sq,
    notifiedKeys := asetdefault st.notifiedKeys chat [] }
  match refresh with
  | none =>
    (st, ["✅ Підчерга " ++ sq ++
      " обрана\n\n⚠️ Не зміг зараз отримати графік із сайту. Спробуй ще раз через хвилину."])
  | some (marker, schedulesAll) =>
    let st := (process_site_once false marker schedulesAll st).1
    let sbd := schedLookup schedulesAll sq
    let st := { st with
      lastSchedule := aset st.lastSchedule chat sbd,
      lastMarker := aset st.lastMarker chat marker,
      lastHash := aset st.lastHash chat (schedule_hash sbd),
      notifiedKeys := aset st.notifiedKeys chat [] }
    let notice := (alookup st.notice chat).getD DEFAULT_NOTICE_MINUTES
    (st, ["✅ Підчерга " ++ sq ++ " обрана\n⏱ Попередження: за " ++ toString notice ++
      " хв\n\n" ++ format_schedule_all_days sq sbd marker])

/-- `cmd_stop` / the `main:stop` button (bot.py lines 541-553 and
690-699): both run `register_user` then pop the five per-subscription
entries; `USER_NOTICE` and `ALL_USERS` are left as they are. -/
def cmd_stop (chat : Nat) (st : BotState) : BotState :=
  let st := register_user chat st
  { st with
    subqueue := apop st.subqueue chat,
    lastHash := apop st.lastHash chat,
    lastSchedule := apop st.lastSchedule chat,
    lastMarker := apop st.lastMarker chat,
    notifiedKeys := apop st.notifiedKeys chat }

/-! ### Concrete pages exercising the extractor -/

/-- A fetched page with no tables at all. -/
def exPageEmpty : Page := ⟨some "upd", []⟩

/-- A table whose only header-like row repeats the single label `1.1` six
times.  The first row makes the table-selector substrings (`Підчерга`,
`1.1`, `6.2`) appear in the table text without any exact-trimmed label
cell. -/
def exTable6 : Table :=
  [ [⟨"Підчерга 1.1 6.2", 1, 1⟩],
    [⟨"1.1", 1, 1⟩, ⟨"1.1", 1, 1⟩, ⟨"1.1", 1, 1⟩, ⟨"1.1", 1, 1⟩, ⟨"1.1", 1, 1⟩, ⟨"1.1", 1, 1⟩],
    [⟨"10.05.2024", 1, 1⟩],
    [⟨"x", 1, 1⟩, ⟨"x", 1, 1⟩, ⟨"x", 1, 1⟩, ⟨"x", 1, 1⟩, ⟨"x", 1, 1⟩, ⟨"06:00-10:00", 1, 1⟩] ]

/-- A page carrying `exTable6`. -/
def exPage6 : Page := ⟨some "upd", [exTable6]⟩

/-- A table with a six-label header in which entity `1.1` gets one real
interval while `1.2` only ever sees the placeholder `Очікується` (and the
remaining entities see blank or pattern-free cells). -/
def exTable9 : Table :=
  [ [⟨"Підчерга 6.2", 1, 1⟩],
    [⟨"1.1", 1, 1⟩, ⟨"1.2", 1, 1⟩, ⟨"2.1", 1, 1⟩, ⟨"2.2", 1, 1⟩, ⟨"3.1", 1, 1⟩, ⟨"3.2", 1, 1⟩],
    [⟨"10.05.2024", 1, 1⟩],
    [⟨"06:00-10:00", 1, 1⟩, ⟨"Очікується", 1, 1⟩, ⟨"", 1, 1⟩, ⟨" ", 1, 1⟩, ⟨"немає", 1, 1⟩, ⟨"-", 1, 1⟩] ]

/-- A page carrying `exTable9`. -/
def exPage9 : Page := ⟨some "upd", [exTable9]⟩

/-- The four `continue` guards of the per-entity cell loop (bot.py lines
288-298): the cell at column `c` is skipped when the column is out of
range, the trimmed text is empty, it contains `Очікується`, or no
`HH:MM-HH:MM` pattern occurs in it. -/
def skippableCell (row : List String) (c : Nat) : Bool :=
  !(decide (c < row.length)) || (strTrim (row.getD c "") == "") ||
    containsSub (strTrim (row.getD c "")) "Очікується" ||
    (timeRangeFindall (strTrim (row.getD c ""))).isEmpty

/-- Every entry of a schedules dict carrying key `sq` has an empty day
map. -/
def allEmpty (sch : List (String × DaySched)) (sq : String) : Prop :=
  ∀ p ∈ sch, p.1 = sq → p.2 = []

/-! ### Association-map lemmas for `SpanMap` -/

theorem lookupSM_insert_self (m : SpanMap) (k : SpanKey) (v : SpanInfo) :
    lookupSM (insertSM m k v) k = some v := by
  simp [lookupSM, insertSM, List.find?]

theorem lookupSM_insert_ne (m : SpanMap) (k k' : SpanKey) (v : SpanInfo)
    (h : k' ≠ k) : lookupSM (insertSM m k v) k' = lookupSM m k' := by
  simp only [lookupSM, insertSM, eraseSM, List.find?]
  have hbe : ((k, v).1 == k') = false := by
    simp [beq_iff_eq]; exact fun he => h he.symm
  simp only [hbe]
  induction m with
  | nil => rfl
  | cons e rest ih =>
    by_cases he : e.1 = k
    · have h1 : (e.1 != k) = false := by simp [he]
      have h2 : (e.1 == k') = false := by
        simp [beq_iff_eq, he]; exact fun hh => h hh.symm
      simp only [List.filter, h1, List.find?, h2, ih]
    · have h1 : (e.1 != k) = true := by simp [he]
      simp only [List.filter, h1, List.find?]
      cases hk : (e.1 == k') with
      | false => simpa [hk] using ih
      | true => rfl

theorem lookupSM_erase_self (m : SpanMap) (k : SpanKey) :
    lookupSM (eraseSM m k) k = none := by
  simp only [lookupSM, eraseSM]
  induction m with
  | nil => rfl
  | cons e rest ih =>
    by_cases he : e.1 = k
    · have h1 : (e.1 != k) = false := by simp [he]
      simpa [List.filter, h1] using ih
    · have h1 : (e.1 != k) = true := by simp [he]
      have h2 : (e.1 == k) = false := by simp [beq_iff_eq, he]
      simpa [List.filter, h1, List.find?, h2] using ih

theorem lookupSM_erase_ne (m : SpanMap) (k k' : SpanKey)
    (h : k' ≠ k) : lookupSM (eraseSM m k) k' = lookupSM m k' := by
  simp only [lookupSM, eraseSM]
  induction m with
  | nil => rfl
  | cons e rest ih =>
    by_cases he : e.1 = k
    · have h1 : (e.1 != k) = false := by simp [he]
      have h2 : (e.1 == k') = false := by
        simp [beq_iff_eq, he]; exact fun hh => h hh.symm
      simp only [List.filter, h1, List.find?, h2]
      exact ih
    · have h1 : (e.1 != k) = true := by simp [he]
      simp only [List.filter, h1, List.find?]
      cases hk : (e.1 == k') with
      | false => simpa [hk] using ih
      | true => rfl

/-- A successful lookup means a matching entry is a member. -/
theorem mem_of_lookupSM (m : SpanMap) (k : SpanKey) (v : SpanInfo)
    (h : lookupSM m k = some v) : (k, v) ∈ m := by
  simp only [lookupSM, Option.map_eq_some'] at h
  obtain ⟨e, he, hev⟩ := h
  have hk := List.find?_some he
  have hm := List.mem_of_find?_eq_some he
  simp only [beq_iff_eq] at hk
  have : e = (k, v) := by
    cases e; simp_all
  rwa [this] at hm

theorem countRow_le_length (r : Nat) (m : SpanMap) : countRow r m ≤ m.length :=
  List.length_filter_le _ m

theorem countRow_insert_other (r : Nat) (m : SpanMap) (k : SpanKey) (v : SpanInfo)
    (h : k.1 ≠ r) : countRow r (insertSM m k v) ≤ countRow r m := by
  have h1 : ((k, v).1.1 == r) = false := by simp [beq_iff_eq, h]
  simp only [countRow, insertSM, eraseSM, List.filter, h1]
  induction m with
  | nil => simp
  | cons e rest ih =>
    by_cases he : e.1 = k
    · have hne : (e.1 != k) = false := by simp [he]
      simp only [List.filter, hne]
      cases hr : (e.1.1 == r) with
      | false => simpa [hr] using ih
      | true =>
        simp only [hr]
        exact Nat.le_succ_of_le ih
    · have hne : (e.1 != k) = true := by simp [he]
      simp only [List.filter, hne]
      cases hr : (e.1.1 == r) with
      | false => simpa [hr] using ih
      | true => simpa [hr] using Nat.succ_le_succ ih

theorem countRow_erase_lt (r c : Nat) (m : SpanMap) (v : SpanInfo)
    (h : lookupSM m (r, c) = some v) : countRow r (eraseSM m (r, c)) < countRow r m := by
  have hmem : ((r, c), v) ∈ m := mem_of_lookupSM m (r, c) v h
  clear h
  induction m with
  | nil => cases hmem
  | cons e rest ih =>
    by_cases he : e.1 = (r, c)
    · have hne : (e.1 != (r, c)) = false := by simp [he]
      have hr : (e.1.1 == r) = true := by simp [beq_iff_eq, he]
      simp only [countRow, eraseSM, List.filter, hne, hr, List.length_cons] at *
      have hle : ((rest.filter (fun e => e.1 != (r, c))).filter
          (fun e => e.1.1 == r)).length ≤ (rest.filter (fun e => e.1.1 == r)).length := by
        rw [List.filter_comm]
        exact List.length_filter_le _ _
      omega
    · have hne : (e.1 != (r, c)) = true := by simp [he]
      have hmem2 : ((r, c), v) ∈ rest := by
        rcases List.mem_cons.mp hmem with h1 | h1
        · exact absurd (congrArg Prod.fst h1.symm) he
        · exact h1
      have := ih hmem2
      simp only [countRow, eraseSM, List.filter, hne] at *
      cases hr : (e.1.1 == r) with
      | false => simpa [hr] using this
      | true => simpa [hr] using Nat.succ_lt_succ this

theorem getD_empty_replicate (n i : Nat) :
    (List.replicate n ("" : String)).getD i "" = "" := by
  induction n generalizing i with
  | zero => simp [List.getD]
  | succ k ih =>
    cases i with
    | zero => simp [List.replicate]
    | succ j => simpa [List.replicate] using ih j

/-- Padding with empty strings never changes a default-`""` indexed read. -/
theorem getD_append_empty_replicate (r : List String) (k i : Nat) :
    (r ++ List.replicate k "").getD i "" = r.getD i "" := by
  rcases Nat.lt_or_ge i r.length with h | h
  · exact List.getD_append r _ "" i h
  · rw [List.getD_append_right r _ "" i h, List.getD_eq_default r "" h,
      getD_empty_replicate]

/-! ### Behaviour of the fill-pending-spans loop -/

/-- Full specification of one `fill_spans_until_free` run, proved by
induction on the fuel (which is adequate whenever it exceeds the number of
pending entries for the current row):

1. the grid row only grows on the right;
2. row length tracks the column cursor;
3. the cursor does not move left;
4. every pending entry for the current row at a column at or past the
   cursor is either consumed — its text lands at exactly its column, and a
   span with rows remaining is re-registered one row down with the counter
   decremented — or survives untouched at or past the final cursor;
5. already-registered entries for the next row strictly left of the cursor
   are preserved;
6. if all next-row entries start strictly left of the cursor, that stays
   true of the final state and final cursor. -/
theorem fillGo_spec (rIdx : Nat) (fuel : Nat) :
    ∀ (m : SpanMap) (row : List String) (c : Nat),
    countRow rIdx m < fuel → row.length = c →
    (∃ ext, (fillGo fuel rIdx m row c).2.1 = row ++ ext) ∧
    (fillGo fuel rIdx m row c).2.1.length = (fillGo fuel rIdx m row c).2.2 ∧
    c ≤ (fillGo fuel rIdx m row c).2.2 ∧
    (∀ x v, lookupSM m (rIdx, x) = some v → c ≤ x →
      ((fillGo fuel rIdx m row c).2.1.getD x "" = v.1 ∧
        x < (fillGo fuel rIdx m row c).2.2 ∧
        (1 < v.2 →
          lookupSM (fillGo fuel rIdx m row c).1 (rIdx + 1, x) = some (v.1, v.2 - 1))) ∨
      (lookupSM (fillGo fuel rIdx m row c).1 (rIdx, x) = some v ∧
        (fillGo fuel rIdx m row c).2.2 ≤ x)) ∧
    (∀ x v, lookupSM m (rIdx, x) = some v → x < c →
      lookupSM (fillGo fuel rIdx m row c).1 (rIdx, x) = some v) ∧
    (∀ x v, lookupSM m (rIdx + 1, x) = some v → x < c →
      lookupSM (fillGo fuel rIdx m row c).1 (rIdx + 1, x) = some v) ∧
    ((∀ x v, lookupSM m (rIdx + 1, x) = some v → x < c) →
      (∀ x v, lookupSM (fillGo fuel rIdx m row c).1 (rIdx + 1, x) = some v →
        x < (fillGo fuel rIdx m row c).2.2)) := by
  induction fuel with
  | zero => intro m row c hcnt _; omega
  | succ fuel ih =>
    intro m row c hcnt hlen
    cases hl : lookupSM m (rIdx, c) with
    | none =>
      simp only [fillGo, hl]
      refine ⟨⟨[], by simp⟩, hlen, Nat.le_refl c, ?_, ?_, ?_, ?_⟩
      · intro x v hx hcx
        exact Or.inr ⟨hx, hcx⟩
      · intro x v hx _; exact hx
      · intro x v hx _; exact hx
      · intro hp x v hx; exact hp x v hx
    | some p =>
      obtain ⟨txt, left⟩ := p
      have hstep : fillGo (fuel + 1) rIdx m row c =
          fillGo fuel rIdx
            (eraseSM (if left > 1 then insertSM m (rIdx + 1, c) (txt, left - 1) else m)
              (rIdx, c))
            (row ++ [txt]) (c + 1) := by
        simp only [fillGo, hl]
      set m1 := if left > 1 then insertSM m (rIdx + 1, c) (txt, left - 1) else m with hm1
      set m2 := eraseSM m1 (rIdx, c) with hm2
      -- the entry (rIdx, c) is still present in m1
      have hl1 : lookupSM m1 (rIdx, c) = some (txt, left) := by
        rw [hm1]
        split
        · rw [lookupSM_insert_ne _ _ _ _ (by simp)]
          exact hl
        · exact hl
      -- row-rIdx entries other than column c are unchanged from m to m2
      have hkeep : ∀ x, x ≠ c → lookupSM m2 (rIdx, x) = lookupSM m (rIdx, x) := by
        intro x hxc
        rw [hm2, lookupSM_erase_ne _ _ _ (by simp [hxc]), hm1]
        split
        · exact lookupSM_insert_ne _ _ _ _ (by simp)
        · rfl
      -- next-row entries other than column c are unchanged from m to m2
      have hkeep1 : ∀ x, x ≠ c → lookupSM m2 (rIdx + 1, x) = lookupSM m (rIdx + 1, x) := by
        intro x hxc
        rw [hm2, lookupSM_erase_ne _ _ _ (by simp), hm1]
        split
        · exact lookupSM_insert_ne _ _ _ _ (by simp [hxc])
        · rfl
      have hcnt1 : countRow rIdx m1 ≤ countRow rIdx m := by
        rw [hm1]; split
        · exact countRow_insert_other _ _ _ _ (by simp)
        · exact Nat.le_refl _
      have hcnt2 : countRow rIdx m2 < fuel := by
        have := countRow_erase_lt rIdx c m1 (txt, left) hl1
        rw [← hm2] at this
        omega
      have hlen2 : (row ++ [txt]).length = c + 1 := by simp [hlen]
      obtain ⟨⟨ext, hext⟩, ihlen, ihle, ihcons, ihkeepR, ihkeep, ihbound⟩ :=
        ih m2 (row ++ [txt]) (c + 1) hcnt2 hlen2
      rw [hstep]
      refine ⟨⟨[txt] ++ ext, by rw [hext, List.append_assoc]⟩, ihlen, by omega,
        ?_, ?_, ?_, ?_⟩
      · -- consumption clause
        intro x v hx hcx
        rcases Nat.eq_or_lt_of_le hcx with hxc | hxc
        · -- x = c : this very entry is consumed now
          subst hxc
          have hveq : v = (txt, left) := by
            rw [hl] at hx
            exact (Option.some_injective _ hx).symm
          left
          refine ⟨?_, by omega, ?_⟩
          · rw [hext]
            have : c < (row ++ [txt]).length := by simp [hlen]
            rw [List.getD_append _ _ "" c this,
              List.getD_append_right row _ "" c (by omega), hveq]
            simp [hlen]
          · intro hv2
            have hreg : lookupSM m2 (rIdx + 1, c) = some (txt, left - 1) := by
              rw [hm2, lookupSM_erase_ne _ _ _ (by simp), hm1]
              have : left > 1 := by
                rw [hveq] at hv2; exact hv2
              rw [if_pos this]
              exact lookupSM_insert_self _ _ _
            have := ihkeep c (txt, left - 1) hreg (by omega)
            rw [hveq]
            exact this
        · -- x > c : handled by the recursive call
          have hx2 : lookupSM m2 (rIdx, x) = some v := by
            rw [hkeep x (by omega)]; exact hx
          exact ihcons x v hx2 (by omega)
      · -- preservation of current-row entries strictly left of the cursor
        intro x v hx hxc
        have hx2 : lookupSM m2 (rIdx, x) = some v := by
          rw [hkeep x (by omega)]; exact hx
        exact ihkeepR x v hx2 (by omega)
      · -- preservation of next-row entries left of the cursor
        intro x v hx hxc
        have hx2 : lookupSM m2 (rIdx + 1, x) = some v := by
          rw [hkeep1 x (by omega)]; exact hx
        exact ihkeep x v hx2 (by omega)
      · -- next-row entries stay strictly left of the final cursor
        intro hp x v hx
        refine ihbound ?_ x v hx
        intro y w hy
        rcases eq_or_ne y c with hyc | hyc
        · omega
        · have : lookupSM m (rIdx + 1, y) = some w := by
            rw [← hkeep1 y hyc]; exact hy
          have := hp y w this
          omega

/-! ### Behaviour of the per-cell rowspan registration loop -/

theorem regSpans_lookup_hit (rIdx c1 : Nat) (txt : String) (rl : Nat) :
    ∀ (k : Nat) (m : SpanMap) (j : Nat), j < k →
      lookupSM (regSpans rIdx c1 txt rl k m) (rIdx + 1, c1 + j) = some (txt, rl) := by
  intro k
  induction k with
  | zero => intro m j hj; omega
  | succ n ih =>
    intro m j hj
    rw [regSpans, List.range_succ, List.foldl_append]
    rcases Nat.lt_or_ge j n with hjn | hjn
    · rw [List.foldl_cons, List.foldl_nil,
        lookupSM_insert_ne _ _ _ _ (by simp; omega)]
      exact ih m j hjn
    · have : j = n := by omega
      subst this
      rw [List.foldl_cons, List.foldl_nil]
      exact lookupSM_insert_self _ _ _

theorem regSpans_lookup_row (rIdx c1 : Nat) (txt : String) (rl : Nat) :
    ∀ (k : Nat) (m : SpanMap) (x : Nat),
      lookupSM (regSpans rIdx c1 txt rl k m) (rIdx, x) = lookupSM m (rIdx, x) := by
  intro k
  induction k with
  | zero => intro m x; rfl
  | succ n ih =>
    intro m x
    rw [regSpans, List.range_succ, List.foldl_append, List.foldl_cons, List.foldl_nil,
      lookupSM_insert_ne _ _ _ _ (by simp)]
    exact ih m x

theorem regSpans_lookup_low (rIdx c1 : Nat) (txt : String) (rl : Nat) :
    ∀ (k : Nat) (m : SpanMap) (x : Nat), x < c1 →
      lookupSM (regSpans rIdx c1 txt rl k m) (rIdx + 1, x) = lookupSM m (rIdx + 1, x) := by
  intro k
  induction k with
  | zero => intro m x _; rfl
  | succ n ih =>
    intro m x hx
    rw [regSpans, List.range_succ, List.foldl_append, List.foldl_cons, List.foldl_nil,
      lookupSM_insert_ne _ _ _ _ (by simp; omega)]
    exact ih m x hx

theorem regSpans_lookup_origin (rIdx c1 : Nat) (txt : String) (rl : Nat) :
    ∀ (k : Nat) (m : SpanMap) (x : Nat) (v : SpanInfo),
      lookupSM (regSpans rIdx c1 txt rl k m) (rIdx + 1, x) = some v →
      lookupSM m (rIdx + 1, x) = some v ∨ (c1 ≤ x ∧ x < c1 + k) := by
  intro k
  induction k with
  | zero => intro m x v h; exact Or.inl h
  | succ n ih =>
    intro m x v h
    rw [regSpans, List.range_succ, List.foldl_append, List.foldl_cons, List.foldl_nil] at h
    rcases eq_or_ne x (c1 + n) with hx | hx
    · right; omega
    · rw [lookupSM_insert_ne _ _ _ _ (by simp [hx])] at h
      rcases ih m x v h with h1 | h1
      · exact Or.inl h1
      · right; omega

theorem getD_replicate_lt {α : Type} (a d : α) (n j : Nat) (h : j < n) :
    (List.replicate n a).getD j d = a := by
  induction n generalizing j with
  | zero => omega
  | succ k ihn =>
    cases j with
    | zero => simp [List.replicate]
    | succ i => simpa [List.replicate] using ihn i (by omega)

/-! ### The instrumented cell loop projects onto the real one -/

theorem placeCells_fst (rIdx : Nat) :
    ∀ (cells : List Cell) (m : SpanMap) (row : List String) (c : Nat),
      (placeCells rIdx cells m row c).1 = processCells rIdx cells m row c := by
  intro cells
  induction cells with
  | nil => intro m row c; rfl
  | cons cell rest ih =>
    intro m row c
    simp only [placeCells, processCells]
    exact ih _ _ _

/-! ### Full specification of the cell loop

In addition to the clauses inherited from `fillGo_spec`, the loop writes
every processed cell's text into the `colspan` positions starting at its
anchor column, and (for `rowspan > 1`) registers those columns for the next
row with counter `rowspan - 1`. Current-row pending entries situated under
a cell's colspan block (columns the cell jumps over) survive to the end of
the loop — they are exactly the entries the completeness check rejects. -/
theorem processCells_spec (rIdx : Nat) :
    ∀ (cells : List Cell) (m : SpanMap) (row : List String) (c : Nat),
    row.length = c →
    (∀ x v, lookupSM m (rIdx + 1, x) = some v → x < c) →
    (∃ ext, (processCells rIdx cells m row c).2.1 = row ++ ext) ∧
    (processCells rIdx cells m row c).2.1.length = (processCells rIdx cells m row c).2.2 ∧
    c ≤ (processCells rIdx cells m row c).2.2 ∧
    (∀ x v, lookupSM m (rIdx, x) = some v → c ≤ x →
      (((processCells rIdx cells m row c).2.1.getD x "" = v.1 ∧
        x < (processCells rIdx cells m row c).2.2 ∧
        (1 < v.2 →
          lookupSM (processCells rIdx cells m row c).1 (rIdx + 1, x) = some (v.1, v.2 - 1))) ∨
      lookupSM (processCells rIdx cells m row c).1 (rIdx, x) = some v)) ∧
    (∀ x v, lookupSM m (rIdx, x) = some v → x < c →
      lookupSM (processCells rIdx cells m row c).1 (rIdx, x) = some v) ∧
    (∀ x v, lookupSM m (rIdx + 1, x) = some v → x < c →
      lookupSM (processCells rIdx cells m row c).1 (rIdx + 1, x) = some v) ∧
    (∀ x v, lookupSM (processCells rIdx cells m row c).1 (rIdx + 1, x) = some v →
      x < (processCells rIdx cells m row c).2.2) ∧
    (∀ q ∈ (placeCells rIdx cells m row c).2,
      q.1 = rIdx ∧ c ≤ q.2.1 ∧
      q.2.1 + q.2.2.colspan ≤ (processCells rIdx cells m row c).2.2 ∧
      (∀ j, j < q.2.2.colspan →
        (processCells rIdx cells m row c).2.1.getD (q.2.1 + j) "" = q.2.2.text) ∧
      (1 < q.2.2.rowspan → ∀ j, j < q.2.2.colspan →
        lookupSM (processCells rIdx cells m row c).1 (rIdx + 1, q.2.1 + j) =
          some (q.2.2.text, q.2.2.rowspan - 1))) := by
  intro cells
  induction cells with
  | nil =>
    intro m row c hlen hP
    refine ⟨⟨[], by simp [processCells]⟩, hlen, Nat.le_refl c, ?_, ?_, ?_, ?_, ?_⟩
    · intro x v hx _; exact Or.inr hx
    · intro x v hx _; exact hx
    · intro x v hx _; exact hx
    · exact hP
    · intro q hq; cases hq
  | cons cell rest ih =>
    intro m row c hlen hP
    have hcnt : countRow rIdx m < m.length + 1 :=
      Nat.lt_succ_of_le (countRow_le_length rIdx m)
    obtain ⟨⟨ext1, hext1⟩, hflen, hfle, hfcons, hfkeepR, hfkeep1, hfbound⟩ :=
      fillGo_spec rIdx (m.length + 1) m row c hcnt hlen
    set f := fillGo (m.length + 1) rIdx m row c with hfdef
    have hP1 : ∀ x v, lookupSM f.1 (rIdx + 1, x) = some v → x < f.2.2 := hfbound hP
    set m2 := if cell.rowspan > 1 then
        regSpans rIdx f.2.2 cell.text (cell.rowspan - 1) cell.colspan f.1
      else f.1 with hm2def
    have hunf : processCells rIdx (cell :: rest) m row c =
        processCells rIdx rest m2
          (f.2.1 ++ List.replicate cell.colspan cell.text) (f.2.2 + cell.colspan) := rfl
    have hunfP : (placeCells rIdx (cell :: rest) m row c).2 =
        (rIdx, f.2.2, cell) ::
          (placeCells rIdx rest m2
            (f.2.1 ++ List.replicate cell.colspan cell.text) (f.2.2 + cell.colspan)).2 := rfl
    -- facts about the registration step m1 → m2
    have hm2row : ∀ x, lookupSM m2 (rIdx, x) = lookupSM f.1 (rIdx, x) := by
      intro x
      rw [hm2def]; split
      · exact regSpans_lookup_row _ _ _ _ _ _ _
      · rfl
    have hm2low : ∀ x, x < f.2.2 → lookupSM m2 (rIdx + 1, x) = lookupSM f.1 (rIdx + 1, x) := by
      intro x hx
      rw [hm2def]; split
      · exact regSpans_lookup_low _ _ _ _ _ _ _ hx
      · rfl
    have hm2origin : ∀ x v, lookupSM m2 (rIdx + 1, x) = some v →
        lookupSM f.1 (rIdx + 1, x) = some v ∨
          (f.2.2 ≤ x ∧ x < f.2.2 + cell.colspan) := by
      intro x v hx
      rw [hm2def] at hx
      by_cases hrs : cell.rowspan > 1
      · rw [if_pos hrs] at hx
        exact regSpans_lookup_origin _ _ _ _ _ _ _ _ hx
      · rw [if_neg hrs] at hx
        exact Or.inl hx
    have hm2hit : 1 < cell.rowspan → ∀ j, j < cell.colspan →
        lookupSM m2 (rIdx + 1, f.2.2 + j) = some (cell.text, cell.rowspan - 1) := by
      intro hrs j hj
      rw [hm2def, if_pos hrs]
      exact regSpans_lookup_hit _ _ _ _ _ _ _ hj
    have hlen2 : (f.2.1 ++ List.replicate cell.colspan cell.text).length =
        f.2.2 + cell.colspan := by
      simp [hflen]
    have hP2 : ∀ x v, lookupSM m2 (rIdx + 1, x) = some v →
        x < f.2.2 + cell.colspan := by
      intro x v hx
      rcases hm2origin x v hx with h1 | h1
      · have := hP1 x v h1; omega
      · omega
    obtain ⟨⟨ext2, hext2⟩, hilen, hile, hicons, hikeepR, hikeep1, hibound, hipl⟩ :=
      ih m2 (f.2.1 ++ List.replicate cell.colspan cell.text) (f.2.2 + cell.colspan)
        hlen2 hP2
    rw [hunf, hunfP]
    set res := processCells rIdx rest m2
      (f.2.1 ++ List.replicate cell.colspan cell.text) (f.2.2 + cell.colspan) with hresdef
    have hrow1len : f.2.1.length = f.2.2 := hflen
    refine ⟨?_, hilen, by omega, ?_, ?_, ?_, hibound, ?_⟩
    · exact ⟨ext1 ++ List.replicate cell.colspan cell.text ++ ext2, by
        rw [hext2, hext1]; simp⟩
    · -- consumption clause
      intro x v hx hcx
      rcases hfcons x v hx hcx with ⟨hrow1, hxlt, hreg⟩ | ⟨hm1x, _⟩
      · -- consumed during this cell's leading fill
        left
        refine ⟨?_, by omega, ?_⟩
        · rw [hext2, List.getD_append _ _ "" x (by
            rw [hlen2]; omega)]
          rw [List.getD_append _ _ "" x (by rw [hrow1len]; omega)]
          exact hrow1
        · intro hv2
          have h1 := hreg hv2
          have h2 : lookupSM m2 (rIdx + 1, x) = some (v.1, v.2 - 1) := by
            rw [hm2low x (by omega)]; exact h1
          exact hikeep1 x _ h2 (by omega)
      · -- survived the leading fill
        have hm2x : lookupSM m2 (rIdx, x) = some v := by
          rw [hm2row x]; exact hm1x
        rcases Nat.lt_or_ge x (f.2.2 + cell.colspan) with hx2 | hx2
        · exact Or.inr (hikeepR x v hm2x hx2)
        · exact hicons x v hm2x hx2
    · -- current-row entries strictly left of the initial cursor survive
      intro x v hx hxc
      have h1 := hfkeepR x v hx hxc
      have h2 : lookupSM m2 (rIdx, x) = some v := by
        rw [hm2row x]; exact h1
      exact hikeepR x v h2 (by omega)
    · -- next-row entries strictly left of the initial cursor survive
      intro x v hx hxc
      have h1 := hfkeep1 x v hx hxc
      have h2 : lookupSM m2 (rIdx + 1, x) = some v := by
        rw [hm2low x (by omega)]; exact h1
      exact hikeep1 x v h2 (by omega)
    · -- placements
      intro q hq
      rcases List.mem_cons.mp hq with hq1 | hq1
      · subst hq1
        dsimp only
        refine ⟨rfl, by omega, by omega, ?_, ?_⟩
        · intro j hj
          rw [hext2, List.getD_append _ _ "" _ (by rw [hlen2]; omega),
            List.getD_append_right _ _ "" _ (by omega)]
          rw [hrow1len]
          have : f.2.2 + j - f.2.2 = j := by omega
          rw [this]
          exact getD_replicate_lt _ _ _ _ hj
        · intro hrs j hj
          have h2 := hm2hit hrs j hj
          exact hikeep1 _ _ h2 (by omega)
      · obtain ⟨hq2, hq3, hq4, hq5, hq6⟩ := hipl q hq1
        exact ⟨hq2, by omega, hq4, hq5, hq6⟩

/-! ### Row-level specification -/

theorem shape_of_all (m : SpanMap) (r : Nat)
    (h : m.all (fun e => e.1.1 == r) = true) :
    ∀ k v, lookupSM m k = some v → k.1 = r := by
  intro k v hk
  have hmem := mem_of_lookupSM m k v hk
  have := List.all_eq_true.mp h _ hmem
  simpa [beq_iff_eq] using this

/-- Specification of one complete row: provided the incoming `span_map` only
carries entries for the current row and the completeness check accepts the
row, (a) every pending entry is materialized at its column and re-registered
one row down while rows remain, (b) every cell is written across its colspan
block and registered one row down when `rowspan > 1`, (c) the outgoing map
only carries entries for the next row. -/
theorem processRow_spec (rIdx : Nat) (cells : List Cell) (m : SpanMap)
    (hshape : ∀ k v, lookupSM m k = some v → k.1 = rIdx)
    (hchk : (processRow rIdx cells m).1.all (fun e => e.1.1 == rIdx + 1) = true) :
    (∀ x v, lookupSM m (rIdx, x) = some v →
      (processRow rIdx cells m).2.getD x "" = v.1 ∧
      (1 < v.2 →
        lookupSM (processRow rIdx cells m).1 (rIdx + 1, x) = some (v.1, v.2 - 1))) ∧
    (∀ q ∈ (placeCells rIdx cells m [] 0).2,
      q.1 = rIdx ∧
      (∀ j, j < q.2.2.colspan →
        (processRow rIdx cells m).2.getD (q.2.1 + j) "" = q.2.2.text) ∧
      (1 < q.2.2.rowspan → ∀ j, j < q.2.2.colspan →
        lookupSM (processRow rIdx cells m).1 (rIdx + 1, q.2.1 + j) =
          some (q.2.2.text, q.2.2.rowspan - 1))) ∧
    (∀ k v, lookupSM (processRow rIdx cells m).1 k = some v → k.1 = rIdx + 1) := by
  have hP0 : ∀ x v, lookupSM m (rIdx + 1, x) = some v → x < 0 := by
    intro x v hx
    have := hshape _ _ hx
    omega
  obtain ⟨⟨ext1, hext1⟩, hclen, hcle, hccons, hckeepR, hckeep1, hcbound, hcpl⟩ :=
    processCells_spec rIdx cells m [] 0 rfl hP0
  set s1 := processCells rIdx cells m [] 0 with hs1
  have hcnt : countRow rIdx s1.1 < s1.1.length + 1 :=
    Nat.lt_succ_of_le (countRow_le_length rIdx s1.1)
  obtain ⟨⟨ext2, hext2⟩, hflen, hfle, hfcons, hfkeepR, hfkeep1, hfbound⟩ :=
    fillGo_spec rIdx (s1.1.length + 1) s1.1 s1.2.1 s1.2.2 hcnt hclen
  have hrowdef : processRow rIdx cells m =
      ((fillGo (s1.1.length + 1) rIdx s1.1 s1.2.1 s1.2.2).1,
        (fillGo (s1.1.length + 1) rIdx s1.1 s1.2.1 s1.2.2).2.1) := rfl
  have hshapeR := shape_of_all _ _ hchk
  refine ⟨?_, ?_, hshapeR⟩
  · -- consumption of every incoming pending entry
    intro x v hx
    rcases hccons x v hx (Nat.zero_le x) with ⟨hrow1, hxlt, hreg⟩ | hm1x
    · -- consumed inside the cell loop
      constructor
      · rw [hrowdef, hext2, List.getD_append _ _ "" x (by rw [hclen]; omega)]
        exact hrow1
      · intro hv2
        have h1 := hreg hv2
        rw [hrowdef]
        exact hfkeep1 x _ h1 hxlt
    · -- survived the cell loop: the trailing fill must consume it,
      -- otherwise the completeness check would have failed
      rcases Nat.lt_or_ge x s1.2.2 with hx2 | hx2
      · have h1 := hfkeepR x v hm1x hx2
        have := hshapeR (rIdx, x) v (by rw [hrowdef]; exact h1)
        omega
      · rcases hfcons x v hm1x hx2 with ⟨hrow2, hxlt2, hreg2⟩ | ⟨h1, _⟩
        · exact ⟨by rw [hrowdef]; exact hrow2, fun hv2 => by
            rw [hrowdef]; exact hreg2 hv2⟩
        · have := hshapeR (rIdx, x) v (by rw [hrowdef]; exact h1)
          omega
  · -- placements
    intro q hq
    obtain ⟨hq1, _, hq3, hq4, hq5⟩ := hcpl q hq
    refine ⟨hq1, ?_, ?_⟩
    · intro j hj
      rw [hrowdef, hext2, List.getD_append _ _ "" _ (by rw [hclen]; omega)]
      exact hq4 j hj
    · intro hrs j hj
      have h1 := hq5 hrs j hj
      rw [hrowdef]
      exact hfkeep1 _ _ h1 (by omega)

/-! ### Grid-level induction -/

theorem buildRows_length : ∀ (t : Table) (rIdx : Nat) (m : SpanMap),
    (buildRows t rIdx m).length = t.length := by
  intro t
  induction t with
  | nil => intro rIdx m; rfl
  | cons cells rest ih =>
    intro rIdx m
    simp only [buildRows, List.length_cons]
    rw [ih]

/-- The instrumented grid walk threads exactly the same span maps as the
real one, so `buildPlace` decomposes row by row through `processRow`. -/
theorem buildPlace_cons (cells : List Cell) (rest : Table) (rIdx : Nat) (m : SpanMap) :
    buildPlace (cells :: rest) rIdx m =
      (placeCells rIdx cells m [] 0).2 ++
        buildPlace rest (rIdx + 1) (processRow rIdx cells m).1 := by
  simp only [buildPlace, placeCells_fst, processRow]

/-- Every span obligation recorded in the incoming map, and every placed
cell, is materialized across all the grid rows it covers (within the rows
that exist), provided the completeness check accepts every row. -/
theorem buildRows_spec : ∀ (rest : Table) (rIdx : Nat) (m : SpanMap),
    rowsComplete rest rIdx m = true →
    (∀ k v, lookupSM m k = some v → k.1 = rIdx) →
    (∀ x txt left, lookupSM m (rIdx, x) = some (txt, left) →
      ∀ i, i < left → i < rest.length →
        ((buildRows rest rIdx m).getD i []).getD x "" = txt) ∧
    (∀ q ∈ buildPlace rest rIdx m, ∃ k, q.1 = rIdx + k ∧ k < rest.length ∧
      ∀ i, i < q.2.2.rowspan → k + i < rest.length →
        ∀ j, j < q.2.2.colspan →
          ((buildRows rest rIdx m).getD (k + i) []).getD (q.2.1 + j) "" = q.2.2.text) := by
  intro rest
  induction rest with
  | nil =>
    intro rIdx m _ _
    constructor
    · intro x txt left _ i _ hi
      simp at hi
    · intro q hq
      cases hq
  | cons cells rest ih =>
    intro rIdx m hcomp hshape
    have hcomp2 := hcomp
    simp only [rowsComplete, Bool.and_eq_true] at hcomp2
    obtain ⟨hchk, hrest⟩ := hcomp2
    obtain ⟨hA, hB, hC⟩ := processRow_spec rIdx cells m hshape hchk
    obtain ⟨ih1, ih2⟩ := ih (rIdx + 1) (processRow rIdx cells m).1 hrest hC
    have hgrid : buildRows (cells :: rest) rIdx m =
        (processRow rIdx cells m).2 :: buildRows rest (rIdx + 1) (processRow rIdx cells m).1 :=
      rfl
    constructor
    · intro x txt left hx i hi hilen
      cases i with
      | zero =>
        rw [hgrid]
        simpa using (hA x (txt, left) hx).1
      | succ i2 =>
        have hleft : 1 < left := by omega
        have hreg := (hA x (txt, left) hx).2 hleft
        rw [hgrid]
        have := ih1 x txt (left - 1) hreg i2 (by omega) (by
          simp only [List.length_cons] at hilen; omega)
        simpa using this
    · intro q hq
      rw [buildPlace_cons] at hq
      rcases List.mem_append.mp hq with hq1 | hq1
      · -- anchored in this row
        obtain ⟨hqr, hqrow, hqreg⟩ := hB q hq1
        refine ⟨0, by omega, by simp, ?_⟩
        intro i hi hklen j hj
        cases i with
        | zero =>
          rw [hgrid]
          simpa using hqrow j hj
        | succ i2 =>
          have hrs : 1 < q.2.2.rowspan := by omega
          have hreg := hqreg hrs j hj
          rw [hgrid]
          have := ih1 _ _ _ hreg i2 (by omega) (by
            simp only [Nat.zero_add, List.length_cons] at hklen; omega)
          simpa using this
      · -- anchored in a later row
        obtain ⟨k2, hk1, hk2, hkv⟩ := ih2 q hq1
        refine ⟨k2 + 1, by omega, by simp; omega, ?_⟩
        intro i hi hklen j hj
        rw [hgrid]
        have : k2 + 1 + i = (k2 + i) + 1 := by omega
        rw [this]
        have := hkv i hi (by simp only [List.length_cons] at hklen; omega) j hj
        simpa using this

theorem foldl_max_init_le : ∀ (l : List Nat) (a : Nat), a ≤ l.foldl max a := by
  intro l
  induction l with
  | nil => intro a; exact Nat.le_refl a
  | cons b t ih =>
    intro a
    calc a ≤ max a b := Nat.le_max_left a b
    _ ≤ (b :: t).foldl max a := ih (max a b)

theorem le_foldl_max_of_mem : ∀ (l : List Nat) (a x : Nat), x ∈ l → x ≤ l.foldl max a := by
  intro l
  induction l with
  | nil => intro a x hx; cases hx
  | cons b t ih =>
    intro a x hx
    rcases List.mem_cons.mp hx with h1 | h1
    · subst h1
      calc x ≤ max a x := Nat.le_max_right a x
      _ ≤ t.foldl max (max a x) := foldl_max_init_le t (max a x)
    · exact ih (max a b) x h1

theorem length_le_maxCols (grid : List (List String)) (r : List String)
    (h : r ∈ grid) : r.length ≤ maxCols grid :=
  le_foldl_max_of_mem _ 0 _ (List.mem_map_of_mem List.length h)

theorem getE_pad_aux : ∀ (grid : List (List String)) (mc r c : Nat),
    (((grid.map (fun rr => rr ++ List.replicate (mc - rr.length) "")).getD r []).getD c "")
      = (grid.getD r []).getD c "" := by
  intro grid
  induction grid with
  | nil => intro mc r c; rfl
  | cons g rest ih =>
    intro mc r c
    cases r with
    | zero => simpa using getD_append_empty_replicate g _ c
    | succ r2 => simpa using ih mc r2 c

/-- Reading the padded output grid is the same as reading the raw grid
(the padding is empty strings, which is also the out-of-range default). -/
theorem getE_htmlTableToMatrix (t : Table) (r c : Nat) :
    getE (htmlTableToMatrix t) r c = ((buildRows t 0 []).getD r []).getD c "" :=
  getE_pad_aux (buildRows t 0 []) (maxCols (buildRows t 0 [])) r c

/-- **C1** (amended).  For every table whose declared spans fit within the
table's bounds *and whose rows are complete* (no row leaves a carried-down
span obligation unmet — `tableComplete`), `_html_table_to_matrix` returns a
rectangular grid (every row padded to the maximum row length) in which
every position covered by a spanning cell holds the originating cell's
exact text: a cell anchored at (r, c) with colspan k and rowspan s fills
columns c..c+k-1 of rows r..r+s-1.  An empty table yields an empty grid. -/
theorem C1_table_materializer (t : Table)
    (hcomp : tableComplete t = true) (hfit : spansFitB t = true) :
    (∀ row ∈ htmlTableToMatrix t, row.length = maxCols (buildRows t 0 [])) ∧
    (∀ q ∈ anchors t, ∀ i, i < q.2.2.rowspan → ∀ j, j < q.2.2.colspan →
      getE (htmlTableToMatrix t) (q.1 + i) (q.2.1 + j) = q.2.2.text) ∧
    htmlTableToMatrix ([] : Table) = [] := by
  refine ⟨?_, ?_, rfl⟩
  · intro row hrow
    obtain ⟨r, hr, hpad⟩ := List.mem_map.mp hrow
    have hle : r.length ≤ maxCols (buildRows t 0 []) := length_le_maxCols _ r hr
    rw [← hpad]
    simp only [List.length_append, List.length_replicate]
    omega
  · intro q hq i hi j hj
    have hshape0 : ∀ k v, lookupSM ([] : SpanMap) k = some v → k.1 = 0 := by
      intro k v h
      simp [lookupSM, List.find?] at h
    obtain ⟨_, hpl⟩ := buildRows_spec t 0 [] hcomp hshape0
    obtain ⟨k, hk1, hk2, hkv⟩ := hpl q hq
    have hfitq := List.all_eq_true.mp hfit q hq
    simp only [Bool.and_eq_true, decide_eq_true_eq] at hfitq
    have hklt : k + i < t.length := by omega
    have := hkv i hi hklt j hj
    rw [getE_htmlTableToMatrix]
    have hqk : q.1 = k := by omega
    rw [hqk]
    exact this

/-- Witness for C1 at a concrete complete table: a cell with `rowspan="2"`
in the first column carries its text down into the second row. -/
theorem C1_table_materializer_witness :
    tableComplete [[⟨"d", 2, 1⟩, ⟨"x", 1, 2⟩], [⟨"y", 1, 1⟩, ⟨"z", 1, 1⟩]] = true ∧
    spansFitB [[⟨"d", 2, 1⟩, ⟨"x", 1, 2⟩], [⟨"y", 1, 1⟩, ⟨"z", 1, 1⟩]] = true ∧
    getE (htmlTableToMatrix [[⟨"d", 2, 1⟩, ⟨"x", 1, 2⟩], [⟨"y", 1, 1⟩, ⟨"z", 1, 1⟩]]) 1 0 = "d" := by
  refine ⟨by decide, by decide, ?_⟩
  have h := (C1_table_materializer [[⟨"d", 2, 1⟩, ⟨"x", 1, 2⟩], [⟨"y", 1, 1⟩, ⟨"z", 1, 1⟩]]
    (by decide) (by decide)).2.1
  have h2 := h (0, 0, ⟨"d", 2, 1⟩) (by decide) 1 (by decide) 0 (by decide)
  simpa using h2

/-- **C1, counterexample to the claim as stated.**  In the table
`[[A, B(rowspan=2)], []]` every declared span fits within the table's
bounds (2 rows, grid width 2), and the algorithm anchors cell B at
row 0, column 1 with rowspan 2 — yet position (1, 1) of the output grid
holds `""`, not B's text: the empty second row never reaches column 1, so
the carried-down span is silently dropped.  Span coverage therefore needs
the row-completeness hypothesis added in the amended claim. -/
theorem C1_counterexample_as_stated :
    spansFitB [[⟨"A", 1, 1⟩, ⟨"B", 2, 1⟩], []] = true ∧
    (0, 1, (⟨"B", 2, 1⟩ : Cell)) ∈ anchors [[⟨"A", 1, 1⟩, ⟨"B", 2, 1⟩], []] ∧
    (1 : Nat) < 2 ∧ (0 : Nat) < 1 ∧
    getE (htmlTableToMatrix [[⟨"A", 1, 1⟩, ⟨"B", 2, 1⟩], []]) (0 + 1) (1 + 0) ≠ "B" := by
  refine ⟨by decide, by decide, by decide, by decide, by decide⟩


/-! ### The event projector: claims C2 and C10 -/

theorem DT.le_def (a b : DT) : a ≤ b ↔ a.key ≤ b.key := Iff.rfl

theorem DT.lt_def (a b : DT) : a < b ↔ a.key < b.key := Iff.rfl

theorem minDT_mem : ∀ (cs : List DT) (c : DT), minDT c cs ∈ c :: cs := by
  intro cs
  induction cs with
  | nil => intro c; exact List.mem_singleton.mpr rfl
  | cons x xs ih =>
    intro c
    have h1 : minDT c (x :: xs) = minDT (if x < c then x else c) xs := rfl
    rw [h1]
    have h2 := ih (if x < c then x else c)
    rcases List.mem_cons.mp h2 with h3 | h3
    · rw [h3]
      split
      · exact List.mem_cons_of_mem _ (List.mem_cons_self _ _)
      · exact List.mem_cons_self _ _
    · exact List.mem_cons_of_mem _ (List.mem_cons_of_mem _ h3)

theorem minDT_le : ∀ (cs : List DT) (c : DT), ∀ u ∈ c :: cs, minDT c cs ≤ u := by
  intro cs
  induction cs with
  | nil =>
    intro c u hu
    rcases List.mem_cons.mp hu with h | h
    · rw [h]; exact Nat.le_refl _
    · cases h
  | cons x xs ih =>
    intro c u hu
    have h1 : minDT c (x :: xs) = minDT (if x < c then x else c) xs := rfl
    rw [h1]
    have hminfc : minDT (if x < c then x else c) xs ≤ (if x < c then x else c) :=
      ih _ _ (List.mem_cons_self _ _)
    rcases List.mem_cons.mp hu with h | h
    · -- u = c
      subst h
      refine Nat.le_trans hminfc ?_
      split
      · next hxc => exact Nat.le_of_lt hxc
      · exact Nat.le_refl _
    rcases List.mem_cons.mp h with h2 | h2
    · -- u = x
      subst h2
      refine Nat.le_trans hminfc ?_
      split
      · exact Nat.le_refl _
      · next hxc =>
        show c.key ≤ u.key
        have hxc2 : ¬ u.key < c.key := hxc
        omega
    · exact ih _ _ (List.mem_cons_of_mem _ h2)

/-- **C2.**  `next_event` implements the three projection rules:
Rule 1 — if some range of `now`'s calendar date contains `now`
(`start ≤ now ≤ end`, the `23:59` end extended to second 59), the result is
the end instant of the *first* such range in stored order, tagged `"ON"`;
Rule 2 — otherwise, if any range of any stored date starts strictly after
`now`, the result is the minimum such start instant, tagged `"OFF"`;
Rule 3 — otherwise `(none, none)`.
Moreover `futureStarts` is exactly the set of start instants strictly
after `now`, and on today's ranges `[("06:00","10:00"), ("18:00","22:00")]`
a `now` of 07:00 yields `(10:00 today, ON)` and 12:00 yields
`(18:00 today, OFF)`. -/
theorem C2_next_event_rules (s : DaySched) (now : DT) :
    (∀ r, (schedGet s (todayStr now)).find? (insideRange (todayStr now) now) = some r →
      next_event s now = (some (intervalEndDt (todayStr now) r.2), some "ON")) ∧
    ((∃ r ∈ schedGet s (todayStr now), insideRange (todayStr now) now r = true) →
      ∃ r, (schedGet s (todayStr now)).find? (insideRange (todayStr now) now) = some r) ∧
    (∀ t : DT, t ∈ futureStarts s now ↔
      (now < t ∧ ∃ p ∈ s, ∃ r ∈ p.2, t = dtForDate p.1 r.1)) ∧
    ((∀ r ∈ schedGet s (todayStr now), insideRange (todayStr now) now r = false) →
      ∀ c cs, futureStarts s now = c :: cs →
        next_event s now = (some (minDT c cs), some "OFF") ∧
        minDT c cs ∈ futureStarts s now ∧
        ∀ u ∈ futureStarts s now, minDT c cs ≤ u) ∧
    ((∀ r ∈ schedGet s (todayStr now), insideRange (todayStr now) now r = false) →
      futureStarts s now = [] → next_event s now = (none, none)) ∧
    next_event [("10.05.2024", [("06:00", "10:00"), ("18:00", "22:00")])]
      ⟨2024, 5, 10, 7, 0, 0⟩ = (some ⟨2024, 5, 10, 10, 0, 0⟩, some "ON") ∧
    next_event [("10.05.2024", [("06:00", "10:00"), ("18:00", "22:00")])]
      ⟨2024, 5, 10, 12, 0, 0⟩ = (some ⟨2024, 5, 10, 18, 0, 0⟩, some "OFF") := by
  refine ⟨?_, ?_, ?_, ?_, ?_, by decide, by decide⟩
  · intro r hr
    simp only [next_event, hr]
  · intro hex
    have := List.find?_isSome.mpr hex
    rcases Option.isSome_iff_exists.mp this with ⟨r, hr⟩
    exact ⟨r, hr⟩
  · intro t
    simp only [futureStarts, List.mem_filter, List.mem_flatMap, List.mem_map,
      decide_eq_true_eq]
    constructor
    · rintro ⟨⟨p, hp, r, hr, hrt⟩, hlt⟩
      exact ⟨hlt, p, hp, r, hr, hrt.symm⟩
    · rintro ⟨hlt, p, hp, r, hr, hrt⟩
      exact ⟨⟨p, hp, r, hr, hrt.symm⟩, hlt⟩
  · intro hnone c cs hfs
    have hfind : (schedGet s (todayStr now)).find? (insideRange (todayStr now) now) = none := by
      rcases hfd : (schedGet s (todayStr now)).find? (insideRange (todayStr now) now) with _ | r
      · rfl
      · have h1 := List.find?_some hfd
        have h2 := List.mem_of_find?_eq_some hfd
        rw [hnone r h2] at h1
        cases h1
    refine ⟨?_, ?_, ?_⟩
    · simp only [next_event, hfind, hfs]
    · rw [hfs]; exact minDT_mem cs c
    · rw [hfs]; exact minDT_le cs c
  · intro hnone hfs
    have hfind : (schedGet s (todayStr now)).find? (insideRange (todayStr now) now) = none := by
      rcases hfd : (schedGet s (todayStr now)).find? (insideRange (todayStr now) now) with _ | r
      · rfl
      · have h1 := List.find?_some hfd
        have h2 := List.mem_of_find?_eq_some hfd
        rw [hnone r h2] at h1
        cases h1
    simp only [next_event, hfind, hfs]

/-- Witness for C2: Rule 1 applied at the claim's concrete example. -/
theorem C2_next_event_rules_witness :
    next_event [("10.05.2024", [("06:00", "10:00"), ("18:00", "22:00")])]
        ⟨2024, 5, 10, 7, 0, 0⟩ =
      (some (intervalEndDt (todayStr ⟨2024, 5, 10, 7, 0, 0⟩) "10:00"), some "ON") :=
  (C2_next_event_rules [("10.05.2024", [("06:00", "10:00"), ("18:00", "22:00")])]
      ⟨2024, 5, 10, 7, 0, 0⟩).1 ("06:00", "10:00") (by decide)

/-- **C10.**  `is_off_now` returns `true` exactly when `next_event`
returns an event of kind `"ON"` — equivalently, it returns `false` exactly
when `next_event` returns a kind-`"OFF"` event or no event at all. -/
theorem C10_is_off_now_iff_next_on (s : DaySched) (now : DT) :
    (is_off_now s now = true ↔ (next_event s now).2 = some "ON") ∧
    (is_off_now s now = false ↔
      (next_event s now).2 = some "OFF" ∨ (next_event s now).2 = none) := by
  have hmain : is_off_now s now = true ↔ (next_event s now).2 = some "ON" := by
    rcases hfd : (schedGet s (todayStr now)).find? (insideRange (todayStr now) now) with _ | r
    · constructor
      · intro hoff
        rcases List.any_eq_true.mp hoff with ⟨r, hr, hpr⟩
        have := List.find?_isSome.mpr ⟨r, hr, hpr⟩
        rw [hfd] at this
        cases this
      · intro hon
        simp only [next_event, hfd] at hon
        rcases hfs : futureStarts s now with _ | ⟨c, cs⟩ <;> rw [hfs] at hon
        · cases hon
        · simp at hon
    · constructor
      · intro _
        simp only [next_event, hfd]
      · intro _
        have h1 := List.find?_some hfd
        have h2 := List.mem_of_find?_eq_some hfd
        exact List.any_eq_true.mpr ⟨r, h2, h1⟩
  refine ⟨hmain, ?_⟩
  constructor
  · intro hfalse
    rcases hfd : (schedGet s (todayStr now)).find? (insideRange (todayStr now) now) with _ | r
    · rcases hfs : futureStarts s now with _ | ⟨c, cs⟩
      · right
        simp only [next_event, hfd, hfs]
      · left
        simp only [next_event, hfd, hfs]
    · have : is_off_now s now = true := by
        have h1 := List.find?_some hfd
        have h2 := List.mem_of_find?_eq_some hfd
        exact List.any_eq_true.mpr ⟨r, h2, h1⟩
      rw [this] at hfalse
      cases hfalse
  · intro hor
    cases hoff : is_off_now s now with
    | false => rfl
    | true =>
      have := hmain.mp hoff
      rcases hor with h | h
      · rw [this] at h
        simp at h
      · rw [this] at h
        simp at h


/-! ### The reminder scheduler: claim C3 -/

/-- Characterization of one reminder tick when the schedule is nonempty,
the lead-time is allowed, and the projector returns a definite event. -/
theorem remTick_eq (sq : String) (s : DaySched) (notice : Nat)
    (notified : List String) (t evDt : DT) (evTy : String)
    (hs : s.isEmpty = false) (hnot : notice ∈ ALLOWED_NOTICE)
    (hev : next_event s t = (some evDt, some evTy)) :
    remTick sq s notice notified t =
      if inWindow evDt notice t then
        (if remKey (fmtYMD t) sq evTy evDt notice ∈ notified then (notified, none)
         else (remKey (fmtYMD t) sq evTy evDt notice :: notified,
               some (reminderText evTy notice evDt)))
      else (notified, none) := by
  simp only [remTick, hs, hnot, if_true, Bool.false_eq_true, if_false, hev]

/-- Once the dedup key of the (single-date) window is in the delivered
set, further ticks — in or out of the window — deliver nothing and leave
the set unchanged. -/
theorem runRem_key_present (sq : String) (s : DaySched) (notice : Nat) (evDt : DT)
    (evTy D : String) :
    ∀ (ticks : List DT) (notified : List String),
    s.isEmpty = false →
    notice ∈ ALLOWED_NOTICE →
    (∀ t ∈ ticks, next_event s t = (some evDt, some evTy)) →
    (∀ t ∈ ticks, inWindow evDt notice t = true → fmtYMD t = D) →
    remKey D sq evTy evDt notice ∈ notified →
    runRem sq s notice notified ticks = (notified, 0) := by
  intro ticks
  induction ticks with
  | nil => intro notified _ _ _ _ _; rfl
  | cons t ts ih =>
    intro notified hs hnot hev hday hmem
    have hstep := remTick_eq sq s notice notified t evDt evTy hs hnot
      (hev t (List.mem_cons_self _ _))
    have htick : remTick sq s notice notified t = (notified, none) := by
      rw [hstep]
      cases hw : inWindow evDt notice t with
      | false => simp
      | true =>
        have hD := hday t (List.mem_cons_self _ _) hw
        rw [hD]
        simp [hmem]
    show (let r := remTick sq s notice notified t
      let rest := runRem sq s notice r.1 ts
      (rest.1, (if r.2.isSome then 1 else 0) + rest.2)) = (notified, 0)
    rw [htick]
    have := ih notified hs hnot (fun u hu => hev u (List.mem_cons_of_mem _ hu))
      (fun u hu => hday u (List.mem_cons_of_mem _ hu)) hmem
    simp [this]

/-- **C3** (amended).  Fix a subscriber (subqueue `sq`, nonempty cached
schedule `s`, allowed lead-time), a transition instant `evDt` and kind
`evTy` that the projector reports at every tick, and suppose every
in-window tick falls on one calendar date `D` (the dedup key embeds the
tick's date, so a window straddling midnight can deliver once per date —
see the counterexample).  If the key is not yet in the delivered set, then
across any sequence of ticks exactly one notification is sent when some
tick lies in the trigger window `notify_time ≤ now < notify_time + 120 s`
(`notify_time = evDt − lead-time`), and none otherwise; after a delivery
the key is in the delivered-keys set. -/
theorem C3_reminder_dedup (sq : String) (s : DaySched) (notice : Nat) (evDt : DT)
    (evTy D : String) :
    ∀ (ticks : List DT) (notified0 : List String),
    s.isEmpty = false →
    notice ∈ ALLOWED_NOTICE →
    (∀ t ∈ ticks, next_event s t = (some evDt, some evTy)) →
    (∀ t ∈ ticks, inWindow evDt notice t = true → fmtYMD t = D) →
    remKey D sq evTy evDt notice ∉ notified0 →
    (runRem sq s notice notified0 ticks).2 =
      (if ticks.any (inWindow evDt notice) then 1 else 0) ∧
    (ticks.any (inWindow evDt notice) = true →
      remKey D sq evTy evDt notice ∈ (runRem sq s notice notified0 ticks).1) := by
  intro ticks
  induction ticks with
  | nil =>
    intro notified0 _ _ _ _ _
    exact ⟨rfl, by intro h; cases h⟩
  | cons t ts ih =>
    intro notified0 hs hnot hev hday hfresh
    have hstep := remTick_eq sq s notice notified0 t evDt evTy hs hnot
      (hev t (List.mem_cons_self _ _))
    have hunf : runRem sq s notice notified0 (t :: ts) =
        (let r := remTick sq s notice notified0 t
         let rest := runRem sq s notice r.1 ts
         (rest.1, (if r.2.isSome then 1 else 0) + rest.2)) := rfl
    cases hw : inWindow evDt notice t with
    | true =>
      have hD := hday t (List.mem_cons_self _ _) hw
      have htick : remTick sq s notice notified0 t =
          (remKey D sq evTy evDt notice :: notified0,
            some (reminderText evTy notice evDt)) := by
        rw [hstep, if_pos (by rw [hw]), hD, if_neg hfresh]
      have habsorb := runRem_key_present sq s notice evDt evTy D ts
        (remKey D sq evTy evDt notice :: notified0) hs hnot
        (fun u hu => hev u (List.mem_cons_of_mem _ hu))
        (fun u hu => hday u (List.mem_cons_of_mem _ hu))
        (List.mem_cons_self _ _)
      rw [hunf]
      constructor
      · simp only [htick, habsorb]
        simp [List.any_cons, hw]
      · intro _
        simp only [htick, habsorb]
        exact List.mem_cons_self _ _
    | false =>
      have htick : remTick sq s notice notified0 t = (notified0, none) := by
        rw [hstep, if_neg (by rw [hw]; exact Bool.false_ne_true)]
      obtain ⟨ih1, ih2⟩ := ih notified0 hs hnot
        (fun u hu => hev u (List.mem_cons_of_mem _ hu))
        (fun u hu => hday u (List.mem_cons_of_mem _ hu)) hfresh
      rw [hunf]
      constructor
      · simp only [htick, ih1]
        simp [List.any_cons, hw]
      · intro hany
        simp only [List.any_cons, hw, Bool.false_or] at hany
        simp only [htick]
        exact ih2 hany

/-- Witness for C3 at a concrete run: three ticks, the first two inside
the window of an 18:00 outage start with 10-minute lead-time, the third
past it — exactly one notification. -/
theorem C3_reminder_dedup_witness :
    (runRem "1.1" [("10.05.2024", [("18:00", "22:00")])] 10 []
      [⟨2024, 5, 10, 17, 50, 30⟩, ⟨2024, 5, 10, 17, 51, 0⟩, ⟨2024, 5, 10, 17, 53, 0⟩]).2 = 1 := by
  have h := (C3_reminder_dedup "1.1" [("10.05.2024", [("18:00", "22:00")])] 10
    ⟨2024, 5, 10, 18, 0, 0⟩ "OFF" "2024-05-10"
    [⟨2024, 5, 10, 17, 50, 30⟩, ⟨2024, 5, 10, 17, 51, 0⟩, ⟨2024, 5, 10, 17, 53, 0⟩] []
    (by decide) (by decide) (by decide) (by decide) (by decide)).1
  rw [h]
  decide

/-- **C3, counterexample to the claim as stated.**  With the outage
starting 00:09 on 11.05 and a 10-minute lead-time, the trigger window is
[23:59:00 of 10.05, 00:01:00 of 11.05) — it straddles midnight.  Both
ticks 23:59:30 and 00:00:30 lie in the window and see the same fixed
transition instant and kind, yet the dedup key embeds the *tick's* date
(`now.strftime("%Y-%m-%d")`), so the two ticks build different keys and
the notification is emitted twice, not at most once. -/
theorem C3_counterexample_as_stated :
    (∀ t ∈ [(⟨2024, 5, 10, 23, 59, 30⟩ : DT), ⟨2024, 5, 11, 0, 0, 30⟩],
      next_event [("11.05.2024", [("00:09", "01:00")])] t =
        (some ⟨2024, 5, 11, 0, 9, 0⟩, some "OFF")) ∧
    (∀ t ∈ [(⟨2024, 5, 10, 23, 59, 30⟩ : DT), ⟨2024, 5, 11, 0, 0, 30⟩],
      inWindow ⟨2024, 5, 11, 0, 9, 0⟩ 10 t = true) ∧
    (runRem "1.1" [("11.05.2024", [("00:09", "01:00")])] 10 []
      [⟨2024, 5, 10, 23, 59, 30⟩, ⟨2024, 5, 11, 0, 0, 30⟩]).2 = 2 := by
  refine ⟨by decide, by decide, by decide⟩


/-! ### The fingerprint serialization: claim C5 -/

theorem char_digit_bounds (c : Char) (h : c.isDigit = true) :
    48 ≤ c.toNat ∧ c.toNat ≤ 57 := by
  simp [Char.isDigit, decide_eq_true_eq] at h
  exact ⟨h.1, h.2⟩

theorem char_eq_of_toNat_eq (a b : Char) (h : a.toNat = b.toNat) : a = b := by
  have ha := Char.ofNat_toNat a
  have hb := Char.ofNat_toNat b
  rw [← ha, ← hb, h]

theorem digit_eq_of_dv_eq (a b : Char) (ha : a.isDigit = true) (hb : b.isDigit = true)
    (h : dv a = dv b) : a = b := by
  have h1 := char_digit_bounds a ha
  have h2 := char_digit_bounds b hb
  refine char_eq_of_toNat_eq a b ?_
  simp only [dv] at h
  omega

theorem dv_lt_10 (c : Char) (h : c.isDigit = true) : dv c < 10 := by
  have := char_digit_bounds c h
  simp only [dv]
  omega

theorem digit_ne_bar (c : Char) (h : c.isDigit = true) : c ≠ '|' := by
  intro he
  subst he
  simp [Char.isDigit] at h

theorem string_mk_data (s : String) : (⟨s.data⟩ : String) = s := rfl

theorem string_data_inj (s t : String) (h : s.data = t.data) : s = t :=
  String.ext h

theorem isTimeStr_shape (t : String) (h : isTimeStr t = true) :
    ∃ h1 h2 m1 m2, t.data = [h1, h2, ':', m1, m2] ∧
      h1.isDigit = true ∧ h2.isDigit = true ∧ m1.isDigit = true ∧ m2.isDigit = true := by
  unfold isTimeStr at h
  split at h
  · next h1 h2 m1 m2 heq =>
    simp only [Bool.and_eq_true] at h
    exact ⟨h1, h2, m1, m2, heq, h.1.1.1, h.1.1.2, h.1.2, h.2⟩
  · cases h

theorem isDateStr_shape (dstr : String) (h : isDateStr dstr = true) :
    ∃ d1 d2 m1 m2 y1 y2 y3 y4,
      dstr.data = [d1, d2, '.', m1, m2, '.', y1, y2, y3, y4] ∧
      d1.isDigit = true ∧ d2.isDigit = true ∧ m1.isDigit = true ∧ m2.isDigit = true ∧
      y1.isDigit = true ∧ y2.isDigit = true ∧ y3.isDigit = true ∧ y4.isDigit = true := by
  unfold isDateStr at h
  split at h
  · next d1 d2 m1 m2 y1 y2 y3 y4 heq =>
    simp only [Bool.and_eq_true] at h
    exact ⟨d1, d2, m1, m2, y1, y2, y3, y4, heq,
      h.1.1.1.1.1.1.1, h.1.1.1.1.1.1.2, h.1.1.1.1.1.2, h.1.1.1.1.2,
      h.1.1.1.2, h.1.1.2, h.1.2, h.2⟩
  · cases h

theorem isDateStr_false_of_length (s : String) (h : s.data.length ≠ 10) :
    isDateStr s = false := by
  unfold isDateStr
  split
  · next heq =>
    rw [heq] at h
    simp at h
  · rfl

theorem token_data (a b : String) :
    (a ++ "-" ++ b).data = a.data ++ '-' :: b.data := by
  rw [String.data_append, String.data_append]
  simp

theorem isDateStr_token_false (a b : String) (ha : isTimeStr a = true)
    (hb : isTimeStr b = true) : isDateStr (a ++ "-" ++ b) = false := by
  obtain ⟨h1, h2, m1, m2, hadata, _⟩ := isTimeStr_shape a ha
  obtain ⟨n1, n2, o1, o2, hbdata, _⟩ := isTimeStr_shape b hb
  refine isDateStr_false_of_length _ ?_
  rw [token_data, hadata, hbdata]
  simp

theorem isDateStr_no_bar (dstr : String) (h : isDateStr dstr = true) :
    '|' ∉ dstr.data := by
  obtain ⟨d1, d2, m1, m2, y1, y2, y3, y4, heq, hd⟩ := isDateStr_shape dstr h
  rw [heq]
  intro hmem
  simp only [List.mem_cons, List.not_mem_nil, or_false] at hmem
  rcases hmem with h | h | h | h | h | h | h | h | h | h <;>
    first
      | (exact absurd h.symm (digit_ne_bar _ (by tauto)))
      | (cases h)

theorem token_no_bar (a b : String) (ha : isTimeStr a = true)
    (hb : isTimeStr b = true) : '|' ∉ (a ++ "-" ++ b).data := by
  obtain ⟨h1, h2, m1, m2, hadata, ha1, ha2, ha3, ha4⟩ := isTimeStr_shape a ha
  obtain ⟨n1, n2, o1, o2, hbdata, hb1, hb2, hb3, hb4⟩ := isTimeStr_shape b hb
  rw [token_data, hadata, hbdata]
  intro hmem
  simp only [List.mem_append, List.mem_cons, List.not_mem_nil, or_false] at hmem
  rcases hmem with (h | h | h | h | h) | (h | h | h | h | h | h) <;>
    first
      | (exact absurd h.symm (digit_ne_bar _ (by tauto)))
      | (cases h)

theorem splitOnChar_sepFree (sep : Char) :
    ∀ (xs : List Char), sep ∉ xs → splitOnChar sep xs = [xs] := by
  intro xs
  induction xs with
  | nil => intro _; rfl
  | cons c cs ih =>
    intro h
    have hc : c ≠ sep := fun he => h (he ▸ List.mem_cons_self c cs)
    have hcs : sep ∉ cs := fun hm => h (List.mem_cons_of_mem c hm)
    simp only [splitOnChar, if_neg hc, ih hcs]

theorem splitOnChar_append (sep : Char) :
    ∀ (xs ys : List Char), sep ∉ xs →
      splitOnChar sep (xs ++ sep :: ys) = xs :: splitOnChar sep ys := by
  intro xs
  induction xs with
  | nil =>
    intro ys _
    simp [splitOnChar]
  | cons c cs ih =>
    intro ys h
    have hc : c ≠ sep := fun he => h (he ▸ List.mem_cons_self c cs)
    have hcs : sep ∉ cs := fun hm => h (List.mem_cons_of_mem c hm)
    simp only [List.cons_append, splitOnChar, if_neg hc, List.append_eq, ih ys hcs]

theorem joinBar_foldl_data :
    ∀ (ps : List String) (acc : String),
      (ps.foldl (fun a q => a ++ "|" ++ q) acc).data =
        acc.data ++ ps.flatMap (fun q => '|' :: q.data) := by
  intro ps
  induction ps with
  | nil => intro acc; simp
  | cons q qs ih =>
    intro acc
    rw [List.foldl_cons, ih, String.data_append, String.data_append]
    simp

theorem joinBar_data (p : String) (ps : List String) :
    (joinBar (p :: ps)).data = p.data ++ ps.flatMap (fun q => '|' :: q.data) :=
  joinBar_foldl_data ps p

theorem split_joinBar :
    ∀ (ps : List String) (p : String), (∀ q ∈ p :: ps, '|' ∉ q.data) →
      splitOnChar '|' (joinBar (p :: ps)).data = (p :: ps).map String.data := by
  intro ps
  induction ps with
  | nil =>
    intro p h
    rw [joinBar_data]
    simp only [List.flatMap_nil, List.append_nil]
    rw [splitOnChar_sepFree '|' p.data (h p (List.mem_cons_self _ _))]
    rfl
  | cons q qs ih =>
    intro p h
    rw [joinBar_data]
    have hflat : (q :: qs).flatMap (fun r => '|' :: r.data) =
        '|' :: (joinBar (q :: qs)).data := by
      rw [joinBar_data]
      simp
    rw [hflat, splitOnChar_append '|' p.data _ (h p (List.mem_cons_self _ _))]
    rw [ih q (fun r hr => h r (List.mem_cons_of_mem _ hr))]
    rfl

theorem takeWhile_all_append {α : Type} (p : α → Bool) :
    ∀ (xs ys : List α), (∀ x ∈ xs, p x = true) →
      List.takeWhile p (xs ++ ys) = xs ++ List.takeWhile p ys := by
  intro xs
  induction xs with
  | nil => intro ys _; rfl
  | cons x xs2 ih =>
    intro ys h
    rw [List.cons_append, List.takeWhile_cons_of_pos (h x (List.mem_cons_self _ _)),
      ih ys (fun z hz => h z (List.mem_cons_of_mem _ hz)), List.cons_append]

theorem dropWhile_all_append {α : Type} (p : α → Bool) :
    ∀ (xs ys : List α), (∀ x ∈ xs, p x = true) →
      List.dropWhile p (xs ++ ys) = List.dropWhile p ys := by
  intro xs
  induction xs with
  | nil => intro ys _; rfl
  | cons x xs2 ih =>
    intro ys h
    rw [List.cons_append, List.dropWhile_cons_of_pos (h x (List.mem_cons_self _ _)),
      ih ys (fun z hz => h z (List.mem_cons_of_mem _ hz))]

theorem tokenToPair_token (a b : String) (ha : isTimeStr a = true)
    (hb : isTimeStr b = true) : tokenToPair ((a ++ "-" ++ b).data) = (a, b) := by
  obtain ⟨h1, h2, m1, m2, hadata, _⟩ := isTimeStr_shape a ha
  have hlen : a.data.length = 5 := by rw [hadata]; rfl
  unfold tokenToPair
  rw [token_data]
  have htake : (a.data ++ '-' :: b.data).take 5 = a.data := by
    rw [← hlen]
    exact List.take_left a.data _
  have hdrop : (a.data ++ '-' :: b.data).drop 6 = b.data := by
    have : a.data ++ '-' :: b.data = (a.data ++ ['-']) ++ b.data := by simp
    rw [this]
    have h6 : (a.data ++ ['-']).length = 6 := by rw [List.length_append, hlen]; rfl
    rw [← h6]
    exact List.drop_left _ _
  rw [htake, hdrop]

theorem decodeParts_cons (p : List Char) (rest : List (List Char)) :
    decodeParts (p :: rest) =
      (⟨p⟩, (rest.takeWhile (fun q => !(isDateStr ⟨q⟩))).map tokenToPair) ::
        decodeParts (rest.dropWhile (fun q => !(isDateStr ⟨q⟩))) := by
  simp only [decodeParts]

theorem decode_partsOf : ∀ (l : List (String × List TimeRange)),
    (∀ p ∈ l, isDateStr p.1 = true ∧
      ∀ r ∈ p.2, isTimeStr r.1 = true ∧ isTimeStr r.2 = true) →
    decodeParts ((partsOf l).map String.data) = l := by
  intro l
  induction l with
  | nil => intro _; simp [partsOf, decodeParts]
  | cons e rest ih =>
    intro h
    obtain ⟨d, rs⟩ := e
    obtain ⟨hdate, hranges⟩ := h (d, rs) (List.mem_cons_self _ _)
    have hmap : (partsOf ((d, rs) :: rest)).map String.data =
        d.data :: ((rs.map (fun r => r.1 ++ "-" ++ r.2)).map String.data ++
          (partsOf rest).map String.data) := by
      simp [partsOf]
    rw [hmap, decodeParts_cons]
    have htok : ∀ q ∈ (rs.map (fun r => r.1 ++ "-" ++ r.2)).map String.data,
        (!(isDateStr ⟨q⟩)) = true := by
      intro q hq
      obtain ⟨t, ht, hqt⟩ := List.mem_map.mp hq
      obtain ⟨r, hr, hrt⟩ := List.mem_map.mp ht
      subst hqt
      subst hrt
      rw [string_mk_data]
      rw [isDateStr_token_false r.1 r.2 (hranges r hr).1 (hranges r hr).2]
      rfl
    have hrest : List.takeWhile (fun q => !(isDateStr ⟨q⟩))
          ((partsOf rest).map String.data) = [] ∧
        List.dropWhile (fun q => !(isDateStr ⟨q⟩))
          ((partsOf rest).map String.data) = (partsOf rest).map String.data := by
      cases rest with
      | nil => exact ⟨rfl, rfl⟩
      | cons e2 rest2 =>
        obtain ⟨d2, rs2⟩ := e2
        obtain ⟨hdate2, _⟩ := h (d2, rs2) (List.mem_cons_of_mem _ (List.mem_cons_self _ _))
        have hmap2 : (partsOf ((d2, rs2) :: rest2)).map String.data =
            d2.data :: ((rs2.map (fun r => r.1 ++ "-" ++ r.2)).map String.data ++
              (partsOf rest2).map String.data) := by
          simp [partsOf]
        rw [hmap2]
        have hneg : ¬ ((!(isDateStr (⟨d2.data⟩ : String))) = true) := by
          rw [string_mk_data, hdate2]
          simp
        exact ⟨List.takeWhile_cons_of_neg hneg, List.dropWhile_cons_of_neg hneg⟩
    rw [takeWhile_all_append _ _ _ htok, dropWhile_all_append _ _ _ htok,
      hrest.1, hrest.2, List.append_nil]
    have hpair : ((rs.map (fun r => r.1 ++ "-" ++ r.2)).map String.data).map tokenToPair
        = rs := by
      rw [List.map_map, List.map_map]
      refine (List.map_congr_left ?_).trans (List.map_id rs)
      intro r hr
      show tokenToPair ((r.1 ++ "-" ++ r.2).data) = r
      rw [tokenToPair_token r.1 r.2 (hranges r hr).1 (hranges r hr).2]
    rw [hpair, ih (fun p hp => h p (List.mem_cons_of_mem _ hp))]

theorem hashParts_eq_partsOf (s : DaySched) : hashParts s = partsOf (canonSched s) := by
  unfold hashParts canonSched partsOf
  rw [List.flatMap_map]

theorem mem_sortedDates (s : DaySched) (d : String) :
    d ∈ sortedDates s ↔ d ∈ s.map Prod.fst :=
  (List.perm_insertionSort dateLE _).mem_iff

theorem canonSched_map_fst (s : DaySched) :
    (canonSched s).map Prod.fst = sortedDates s := by
  unfold canonSched
  rw [List.map_map]
  exact List.map_id _

theorem canonSched_WF (s : DaySched) (h : WFsched s) :
    ∀ p ∈ canonSched s, isDateStr p.1 = true ∧
      ∀ r ∈ p.2, isTimeStr r.1 = true ∧ isTimeStr r.2 = true := by
  intro p hp
  obtain ⟨d, hd, heq⟩ := List.mem_map.mp hp
  subst heq
  have hdk : d ∈ s.map Prod.fst := (mem_sortedDates s d).mp hd
  obtain ⟨q, hq, hqd⟩ := List.mem_map.mp hdk
  refine ⟨by rw [← hqd]; exact (h.2 q hq).1, ?_⟩
  intro r hr
  unfold schedGet at hr
  rcases hf : s.find? (fun p2 => p2.1 == d) with _ | q2
  · rw [hf] at hr
    cases hr
  · rw [hf] at hr
    have hq2 := List.mem_of_find?_eq_some hf
    exact (h.2 q2 hq2).2 r hr

theorem parts_no_bar (s : DaySched) (h : WFsched s) :
    ∀ q ∈ hashParts s, '|' ∉ q.data := by
  rw [hashParts_eq_partsOf]
  intro q hq
  unfold partsOf at hq
  obtain ⟨p, hp, hq2⟩ := List.mem_flatMap.mp hq
  obtain ⟨hdate, hranges⟩ := canonSched_WF s h p hp
  rcases List.mem_cons.mp hq2 with h1 | h1
  · subst h1
    exact isDateStr_no_bar _ hdate
  · obtain ⟨r, hr, heq⟩ := List.mem_map.mp h1
    subst heq
    exact token_no_bar _ _ (hranges r hr).1 (hranges r hr).2

theorem schedGet_eq_lookupOpt (s : DaySched) (d : String) :
    schedGet s d = (lookupOpt s d).getD [] := by
  unfold schedGet lookupOpt
  cases s.find? (fun p => p.1 == d) <;> rfl

theorem lookupOpt_eq_some_of_mem (s : DaySched) (d : String)
    (h : d ∈ s.map Prod.fst) : lookupOpt s d = some (schedGet s d) := by
  unfold lookupOpt schedGet
  rcases hf : s.find? (fun p => p.1 == d) with _ | q
  · exfalso
    obtain ⟨q, hq, hqd⟩ := List.mem_map.mp h
    have : (s.find? (fun p => p.1 == d)).isSome = true :=
      List.find?_isSome.mpr ⟨q, hq, by simp [hqd]⟩
    rw [hf] at this
    cases this
  · rw [hf]
    rfl

theorem lookupOpt_none_of_not_mem (s : DaySched) (d : String)
    (h : d ∉ s.map Prod.fst) : lookupOpt s d = none := by
  unfold lookupOpt
  rcases hf : s.find? (fun p => p.1 == d) with _ | q
  · rw [hf]
    rfl
  · exfalso
    apply h
    have hq := List.mem_of_find?_eq_some hf
    have hqd := List.find?_some hf
    simp only [beq_iff_eq] at hqd
    exact List.mem_map.mpr ⟨q, hq, hqd⟩

theorem lookupOpt_isSome_iff (s : DaySched) (d : String) :
    (lookupOpt s d).isSome = true ↔ d ∈ s.map Prod.fst := by
  constructor
  · intro h
    by_cases hd : d ∈ s.map Prod.fst
    · exact hd
    · rw [lookupOpt_none_of_not_mem s d hd] at h
      cases h
  · intro hd
    rw [lookupOpt_eq_some_of_mem s d hd]
    rfl

/-- On well-formed date strings, the chronological sort key is injective
(the key determines all ten characters). -/
theorem dateSortKey_inj (a b : String) (ha : isDateStr a = true)
    (hb : isDateStr b = true)
    (h : keyNat (dateSortKey a) = keyNat (dateSortKey b)) : a = b := by
  obtain ⟨a1, a2, a3, a4, a5, a6, a7, a8, hadata, ha1, ha2, ha3, ha4, ha5, ha6, ha7, ha8⟩ :=
    isDateStr_shape a ha
  obtain ⟨b1, b2, b3, b4, b5, b6, b7, b8, hbdata, hb1, hb2, hb3, hb4, hb5, hb6, hb7, hb8⟩ :=
    isDateStr_shape b hb
  have hka : dateSortKey a =
      (((dv a5 * 10 + dv a6) * 10 + dv a7) * 10 + dv a8,
        dv a3 * 10 + dv a4, dv a1 * 10 + dv a2) := by
    unfold dateSortKey
    rw [hadata]
    simp [ha1, ha2, ha3, ha4, ha5, ha6, ha7, ha8]
  have hkb : dateSortKey b =
      (((dv b5 * 10 + dv b6) * 10 + dv b7) * 10 + dv b8,
        dv b3 * 10 + dv b4, dv b1 * 10 + dv b2) := by
    unfold dateSortKey
    rw [hbdata]
    simp [hb1, hb2, hb3, hb4, hb5, hb6, hb7, hb8]
  rw [hka, hkb] at h
  unfold keyNat at h
  simp only at h
  have d1 := dv_lt_10 a1 ha1
  have d2 := dv_lt_10 a2 ha2
  have d3 := dv_lt_10 a3 ha3
  have d4 := dv_lt_10 a4 ha4
  have d5 := dv_lt_10 a5 ha5
  have d6 := dv_lt_10 a6 ha6
  have d7 := dv_lt_10 a7 ha7
  have d8 := dv_lt_10 a8 ha8
  have e1 := dv_lt_10 b1 hb1
  have e2 := dv_lt_10 b2 hb2
  have e3 := dv_lt_10 b3 hb3
  have e4 := dv_lt_10 b4 hb4
  have e5 := dv_lt_10 b5 hb5
  have e6 := dv_lt_10 b6 hb6
  have e7 := dv_lt_10 b7 hb7
  have e8 := dv_lt_10 b8 hb8
  have hdv : dv a1 = dv b1 ∧ dv a2 = dv b2 ∧ dv a3 = dv b3 ∧ dv a4 = dv b4 ∧
      dv a5 = dv b5 ∧ dv a6 = dv b6 ∧ dv a7 = dv b7 ∧ dv a8 = dv b8 := by
    omega
  refine string_data_inj a b ?_
  rw [hadata, hbdata]
  rw [digit_eq_of_dv_eq a1 b1 ha1 hb1 hdv.1,
    digit_eq_of_dv_eq a2 b2 ha2 hb2 hdv.2.1,
    digit_eq_of_dv_eq a3 b3 ha3 hb3 hdv.2.2.1,
    digit_eq_of_dv_eq a4 b4 ha4 hb4 hdv.2.2.2.1,
    digit_eq_of_dv_eq a5 b5 ha5 hb5 hdv.2.2.2.2.1,
    digit_eq_of_dv_eq a6 b6 ha6 hb6 hdv.2.2.2.2.2.1,
    digit_eq_of_dv_eq a7 b7 ha7 hb7 hdv.2.2.2.2.2.2.1,
    digit_eq_of_dv_eq a8 b8 ha8 hb8 hdv.2.2.2.2.2.2.2]

theorem sortedDates_sorted (s : DaySched) : List.Sorted dateLE (sortedDates s) := by
  haveI : IsTotal String dateLE := ⟨fun a b => Nat.le_total _ _⟩
  haveI : IsTrans String dateLE := ⟨fun a b c => Nat.le_trans⟩
  exact List.sorted_insertionSort dateLE _

/-- Dates in the serialization appear strictly sorted by (year, month,
day) once the schedule is well-formed. -/
theorem sortedDates_strict (s : DaySched) (h : WFsched s) :
    List.Pairwise (fun a b => keyNat (dateSortKey a) < keyNat (dateSortKey b))
      (sortedDates s) := by
  have hnd : (sortedDates s).Nodup :=
    ((List.perm_insertionSort dateLE _).nodup_iff).mpr h.1
  have hs := sortedDates_sorted s
  have hand := List.Pairwise.and hs hnd
  refine hand.imp_of_mem ?_
  intro a b hma hmb hab
  obtain ⟨hle, hne⟩ := hab
  have hwfa : isDateStr a = true := by
    have := (mem_sortedDates s a).mp hma
    obtain ⟨q, hq, hqd⟩ := List.mem_map.mp this
    rw [← hqd]
    exact (h.2 q hq).1
  have hwfb : isDateStr b = true := by
    have := (mem_sortedDates s b).mp hmb
    obtain ⟨q, hq, hqd⟩ := List.mem_map.mp this
    rw [← hqd]
    exact (h.2 q hq).1
  rcases Nat.lt_or_ge (keyNat (dateSortKey a)) (keyNat (dateSortKey b)) with hlt | hge
  · exact hlt
  · exfalso
    have : keyNat (dateSortKey a) = keyNat (dateSortKey b) := Nat.le_antisymm hle hge
    exact hne (dateSortKey_inj a b hwfa hwfb this)

theorem sortedDates_eq (A B : DaySched) (hA : WFsched A) (hB : WFsched B)
    (h : ∀ d, lookupOpt A d = lookupOpt B d) : sortedDates A = sortedDates B := by
  have hndA : (sortedDates A).Nodup :=
    ((List.perm_insertionSort dateLE _).nodup_iff).mpr hA.1
  have hndB : (sortedDates B).Nodup :=
    ((List.perm_insertionSort dateLE _).nodup_iff).mpr hB.1
  have hmem : ∀ d, d ∈ sortedDates A ↔ d ∈ sortedDates B := by
    intro d
    rw [mem_sortedDates, mem_sortedDates, ← lookupOpt_isSome_iff, ← lookupOpt_isSome_iff,
      h d]
  have hperm := (List.perm_ext_iff_of_nodup hndA hndB).mpr hmem
  haveI : IsAntisymm String (fun a b => keyNat (dateSortKey a) < keyNat (dateSortKey b)) :=
    ⟨fun a b h1 h2 => absurd h2 (Nat.lt_asymm h1)⟩
  exact List.eq_of_perm_of_sorted hperm (sortedDates_strict A hA) (sortedDates_strict B hB)

theorem scheduleRaw_of_lookups (A B : DaySched) (hA : WFsched A) (hB : WFsched B)
    (h : ∀ d, lookupOpt A d = lookupOpt B d) : scheduleRaw A = scheduleRaw B := by
  unfold scheduleRaw
  congr 1
  unfold hashParts
  rw [sortedDates_eq A B hA hB h, List.flatMap_def, List.flatMap_def]
  congr 1
  refine List.map_congr_left ?_
  intro d _
  rw [schedGet_eq_lookupOpt, schedGet_eq_lookupOpt, h d]

theorem scheduleRaw_decode (s : DaySched) (h : WFsched s) :
    decodeRaw (scheduleRaw s) = canonSched s := by
  rcases hsd : sortedDates s with _ | ⟨d0, ds⟩
  · -- no dates at all: the raw string is empty and both sides are []
    have hparts : hashParts s = [] := by
      unfold hashParts
      rw [hsd]
      rfl
    have hraw : scheduleRaw s = "" := by
      unfold scheduleRaw
      rw [hparts]
      rfl
    have hcanon : canonSched s = [] := by
      unfold canonSched
      rw [hsd]
      rfl
    rw [hraw, hcanon]
    rfl
  · have hparts := hashParts_eq_partsOf s
    have hcanon0 : canonSched s = (d0, schedGet s d0) :: ds.map (fun d => (d, schedGet s d)) := by
      unfold canonSched
      rw [hsd]
      rfl
    have hWFc := canonSched_WF s h
    have hd0 : isDateStr d0 = true := by
      have : (d0, schedGet s d0) ∈ canonSched s := by
        rw [hcanon0]; exact List.mem_cons_self _ _
      exact (hWFc _ this).1
    obtain ⟨c1, c2, c3, c4, c5, c6, c7, c8, hd0data, _⟩ := isDateStr_shape d0 hd0
    -- the parts list is nonempty and starts with the first date
    have hpartsc : hashParts s =
        d0 :: ((schedGet s d0).map (fun r => r.1 ++ "-" ++ r.2) ++
          partsOf (ds.map (fun d => (d, schedGet s d)))) := by
      rw [hparts, hcanon0]
      rfl
    have hrawdata : (scheduleRaw s).data =
        d0.data ++ ((schedGet s d0).map (fun r => r.1 ++ "-" ++ r.2) ++
          partsOf (ds.map (fun d => (d, schedGet s d)))).flatMap (fun q => '|' :: q.data) := by
      unfold scheduleRaw
      rw [hpartsc, joinBar_data]
    have hrawne : scheduleRaw s ≠ "" := by
      intro he
      have : (scheduleRaw s).data = [] := by rw [he]
      rw [hrawdata, hd0data] at this
      cases this
    unfold decodeRaw
    rw [if_neg hrawne]
    have hsplit : splitOnChar '|' (scheduleRaw s).data = (hashParts s).map String.data := by
      unfold scheduleRaw
      rw [hpartsc]
      exact split_joinBar _ _ (by
        rw [← hpartsc]
        exact fun q hq => parts_no_bar s h q hq)
    rw [hsplit, hparts]
    exact decode_partsOf _ hWFc

theorem lookups_of_scheduleRaw (A B : DaySched) (hA : WFsched A) (hB : WFsched B)
    (h : scheduleRaw A = scheduleRaw B) : ∀ d, lookupOpt A d = lookupOpt B d := by
  have hcanon : canonSched A = canonSched B := by
    rw [← scheduleRaw_decode A hA, ← scheduleRaw_decode B hB, h]
  have hsame : sortedDates A = sortedDates B := by
    rw [← canonSched_map_fst, ← canonSched_map_fst, hcanon]
  intro d
  by_cases hd : d ∈ A.map Prod.fst
  · have hdsA : d ∈ sortedDates A := (mem_sortedDates A d).mpr hd
    have hmemA : (d, schedGet A d) ∈ canonSched A :=
      List.mem_map_of_mem (fun d => (d, schedGet A d)) hdsA
    rw [hcanon] at hmemA
    obtain ⟨d2, hd2, heq⟩ := List.mem_map.mp hmemA
    have hd2d : d2 = d := congrArg Prod.fst heq
    have hval : schedGet B d = schedGet A d := by
      subst hd2d
      exact congrArg Prod.snd heq
    have hdB : d ∈ B.map Prod.fst := by
      refine (mem_sortedDates B d).mp ?_
      rw [← hsame]
      exact hdsA
    rw [lookupOpt_eq_some_of_mem A d hd, lookupOpt_eq_some_of_mem B d hdB, hval]
  · have hdB : d ∉ B.map Prod.fst := by
      intro hdB
      apply hd
      refine (mem_sortedDates A d).mp ?_
      rw [hsame]
      exact (mem_sortedDates B d).mpr hdB
    rw [lookupOpt_none_of_not_mem A d hd, lookupOpt_none_of_not_mem B d hdB]

/-- **C5.**  The fingerprint is deterministic and computed over the
serialization that lists the schedule's dates sorted chronologically by
(year, month, day) — `dateSortKey`, a numeric key, not a lexicographic
string sort — each followed by its ranges in stored order as `start-end`
tokens, `|`-joined and hashed with SHA-256.  For well-formed schedules
(`DD.MM.YYYY` dates with distinct keys, `HH:MM` endpoints), the SHA-256
input `scheduleRaw` is equal for A and B **iff** A and B have identical
date sets and, per date, identical ordered range lists; hence equal data
gives equal digests, and any difference — e.g. one changed minute —
changes the hashed serialization (so the digest, up to SHA-256
collisions).  The dates appear in the serialization strictly
chronologically sorted, a permutation of the schedule's keys. -/
theorem C5_schedule_hash_fingerprint (A B : DaySched) (hA : WFsched A) (hB : WFsched B) :
    (scheduleRaw A = scheduleRaw B ↔ ∀ d, lookupOpt A d = lookupOpt B d) ∧
    ((∀ d, lookupOpt A d = lookupOpt B d) → schedule_hash A = schedule_hash B) ∧
    schedule_hash A = sha256Hex (strBytes (scheduleRaw A)) ∧
    List.Pairwise (fun a b => keyNat (dateSortKey a) < keyNat (dateSortKey b))
      (sortedDates A) ∧
    (sortedDates A).Perm (A.map Prod.fst) := by
  refine ⟨⟨lookups_of_scheduleRaw A B hA hB, scheduleRaw_of_lookups A B hA hB⟩,
    ?_, rfl, sortedDates_strict A hA, List.perm_insertionSort dateLE _⟩
  intro h
  unfold schedule_hash
  rw [scheduleRaw_of_lookups A B hA hB h]

/-- Witness for C5: two schedules with the same per-date data inserted in
different orders serialize identically (and conversely the serialization
equality transports the per-date lookups); the dates 31.12.2024 and
02.01.2025 sort chronologically, not lexicographically. -/
theorem C5_schedule_hash_fingerprint_witness :
    WFsched [("31.12.2024", [("06:00", "10:00")]), ("02.01.2025", [("11:00", "12:00")])] ∧
    lookupOpt [("31.12.2024", [("06:00", "10:00")]), ("02.01.2025", [("11:00", "12:00")])]
        "02.01.2025" =
      lookupOpt [("02.01.2025", [("11:00", "12:00")]), ("31.12.2024", [("06:00", "10:00")])]
        "02.01.2025" ∧
    sortedDates [("02.01.2025", [("11:00", "12:00")]), ("31.12.2024", [("06:00", "10:00")])] =
      ["31.12.2024", "02.01.2025"] := by
  refine ⟨by decide, ?_, by decide⟩
  exact ((C5_schedule_hash_fingerprint
    [("31.12.2024", [("06:00", "10:00")]), ("02.01.2025", [("11:00", "12:00")])]
    [("02.01.2025", [("11:00", "12:00")]), ("31.12.2024", [("06:00", "10:00")])]
    (by decide) (by decide)).1.mp (by decide)) "02.01.2025"


/-! ### Association-map lemmas for the subscriber dicts -/

theorem alookup_append {β : Type} (m1 m2 : List (Nat × β)) (k : Nat) :
    alookup (m1 ++ m2) k = (alookup m1 k).or (alookup m2 k) := by
  unfold alookup
  rw [List.find?_append]
  cases m1.find? (fun e => e.1 == k) <;> rfl

theorem alookup_nil {β : Type} (k : Nat) : alookup ([] : List (Nat × β)) k = none := rfl

theorem alookup_single_self {β : Type} (k : Nat) (v : β) :
    alookup [(k, v)] k = some v := by
  simp [alookup, List.find?]

theorem alookup_single_other {β : Type} (k c : Nat) (v : β) (h : c ≠ k) :
    alookup [(k, v)] c = none := by
  simp only [alookup, List.find?]
  have : ((k, v).1 == c) = false := by simp [beq_iff_eq]; exact fun he => h he.symm
  simp [this]

theorem alookup_map_update_self {β : Type} (m : List (Nat × β)) (k : Nat) (v : β)
    (h : (m.find? (fun e => e.1 == k)).isSome = true) :
    alookup (m.map (fun e => if e.1 == k then (k, v) else e)) k = some v := by
  induction m with
  | nil => cases h
  | cons e rest ih =>
    by_cases he : e.1 = k
    · have hbe : (e.1 == k) = true := by simp [he]
      simp [alookup, List.find?, hbe]
    · have hbe : (e.1 == k) = false := by simp [he]
      simp only [List.find?, hbe] at h
      have h2 : (rest.find? (fun e => e.1 == k)).isSome = true := by
        simpa using h
      have := ih h2
      simp only [alookup] at this ⊢
      simp only [List.map_cons, hbe, Bool.false_eq_true, if_false, List.find?, hbe]
      exact this

theorem alookup_map_update_other {β : Type} (m : List (Nat × β)) (k c : Nat) (v : β)
    (h : c ≠ k) :
    alookup (m.map (fun e => if e.1 == k then (k, v) else e)) c = alookup m c := by
  induction m with
  | nil => rfl
  | cons e rest ih =>
    by_cases he : e.1 = k
    · have hbe : (e.1 == k) = true := by simp [he]
      have hck : ((k : Nat) == c) = false := by
        simp [beq_iff_eq]; exact fun h2 => h h2.symm
      have hec : (e.1 == c) = false := by
        simp [beq_iff_eq, he]; exact fun h2 => h h2.symm
      simp only [alookup] at ih ⊢
      simp only [List.map_cons, hbe, if_true, List.find?, hck, hec]
      exact ih
    · have hbe : (e.1 == k) = false := by simp [he]
      simp only [alookup] at ih ⊢
      simp only [List.map_cons, hbe, Bool.false_eq_true, if_false, List.find?]
      cases hec : (e.1 == c) with
      | true => rfl
      | false => exact ih

theorem alookup_aset_self {β : Type} (m : List (Nat × β)) (k : Nat) (v : β) :
    alookup (aset m k v) k = some v := by
  unfold aset
  split
  · next h => exact alookup_map_update_self m k v h
  · rw [alookup_append]
    next h =>
      have : alookup m k = none := by
        unfold alookup
        rcases hf : m.find? (fun e => e.1 == k) with _ | q
        · rw [hf]; rfl
        · rw [hf] at h; cases h rfl
      rw [this, alookup_single_self]
      rfl

theorem alookup_aset_other {β : Type} (m : List (Nat × β)) (k c : Nat) (v : β)
    (h : c ≠ k) : alookup (aset m k v) c = alookup m c := by
  unfold aset
  split
  · exact alookup_map_update_other m k c v h
  · rw [alookup_append, alookup_single_other k c v h]
    cases alookup m c <;> rfl

theorem alookup_asetdefault_self {β : Type} (m : List (Nat × β)) (k : Nat) (v : β) :
    alookup (asetdefault m k v) k = some ((alookup m k).getD v) := by
  unfold asetdefault
  split
  · next h =>
    unfold alookup
    rcases hf : m.find? (fun e => e.1 == k) with _ | q
    · rw [hf] at h; cases h
    · rw [hf]; rfl
  · next h =>
    have hn : alookup m k = none := by
      unfold alookup
      rcases hf : m.find? (fun e => e.1 == k) with _ | q
      · rw [hf]; rfl
      · rw [hf] at h; cases h rfl
    rw [alookup_append, hn, alookup_single_self]
    rfl

theorem alookup_asetdefault_other {β : Type} (m : List (Nat × β)) (k c : Nat) (v : β)
    (h : c ≠ k) : alookup (asetdefault m k v) c = alookup m c := by
  unfold asetdefault
  split
  · rfl
  · rw [alookup_append, alookup_single_other k c v h]
    cases alookup m c <;> rfl

theorem alookup_apop_self {β : Type} (m : List (Nat × β)) (k : Nat) :
    alookup (apop m k) k = none := by
  unfold alookup apop
  induction m with
  | nil => rfl
  | cons e rest ih =>
    by_cases he : e.1 = k
    · have h1 : (e.1 != k) = false := by simp [he]
      simpa [List.filter, h1] using ih
    · have h1 : (e.1 != k) = true := by simp [he]
      have h2 : (e.1 == k) = false := by simp [beq_iff_eq, he]
      simpa [List.filter, h1, List.find?, h2] using ih

theorem alookup_apop_other {β : Type} (m : List (Nat × β)) (k c : Nat) (h : c ≠ k) :
    alookup (apop m k) c = alookup m c := by
  unfold alookup apop
  induction m with
  | nil => rfl
  | cons e rest ih =>
    by_cases he : e.1 = k
    · have h1 : (e.1 != k) = false := by simp [he]
      have h2 : (e.1 == c) = false := by
        simp [beq_iff_eq, he]; exact fun h3 => h h3.symm
      simp only [List.filter, h1, List.find?, h2]
      exact ih
    · have h1 : (e.1 != k) = true := by simp [he]
      simp only [List.filter, h1, List.find?]
      cases hec : (e.1 == c) with
      | true => rfl
      | false => exact ih

/-! ### The watch-tick per-subscriber step: claim C4 -/

/-- **C4** (amended).  With updates enabled, the per-subscriber body of
`process_site_once`: (a) when the fresh fingerprint differs from the
stored one, it records the new fingerprint, resets the delivered-keys set
to empty, replaces the cached schedule and marker, and sends exactly one
change notification whose text carries the full formatted schedule;
(b) when the fingerprint is unchanged it only refreshes the cached
schedule and marker and sends nothing; (c) on first observation (no prior
fingerprint) it records the fingerprint silently — but initializes the
delivered-keys set to empty only if the subscriber had no delivered-keys
entry: an existing entry is kept (`setdefault`), which is where the claim
as stated fails. -/
theorem C4_site_change_notification (schedulesAll : List (String × DaySched))
    (marker : Option String) (st : BotState) (chat : Nat) (sq : String) :
    (∀ oldHash, alookup st.lastHash chat = some oldHash →
      schedule_hash (schedLookup schedulesAll sq) ≠ oldHash →
      processSiteUserStep true schedulesAll marker st chat sq =
        ({ st with
            lastSchedule := aset st.lastSchedule chat (schedLookup schedulesAll sq),
            lastMarker := aset st.lastMarker chat marker,
            lastHash := aset st.lastHash chat (schedule_hash (schedLookup schedulesAll sq)),
            notifiedKeys := aset st.notifiedKeys chat [] },
          [(chat, changeText sq (schedLookup schedulesAll sq) marker)])) ∧
    (∀ oldHash, alookup st.lastHash chat = some oldHash →
      schedule_hash (schedLookup schedulesAll sq) = oldHash →
      processSiteUserStep true schedulesAll marker st chat sq =
        ({ st with
            lastSchedule := aset st.lastSchedule chat (schedLookup schedulesAll sq),
            lastMarker := aset st.lastMarker chat marker }, [])) ∧
    (alookup st.lastHash chat = none →
      processSiteUserStep true schedulesAll marker st chat sq =
        ({ st with
            lastSchedule := aset st.lastSchedule chat (schedLookup schedulesAll sq),
            lastMarker := aset st.lastMarker chat marker,
            lastHash := aset st.lastHash chat (schedule_hash (schedLookup schedulesAll sq)),
            notifiedKeys := asetdefault st.notifiedKeys chat [] }, [])) ∧
    changeText sq (schedLookup schedulesAll sq) marker =
      "🔄 Оновився графік по підчерзі " ++ sq ++ "\n\n" ++
        format_schedule_all_days sq (schedLookup schedulesAll sq) marker := by
  refine ⟨?_, ?_, ?_, rfl⟩
  · intro oldHash hold hne
    have hbne : (schedule_hash (schedLookup schedulesAll sq) != oldHash) = true := by
      simp [bne_iff_ne]; exact hne
    simp only [processSiteUserStep, hold, Bool.true_and, hbne, if_true]
  · intro oldHash hold heq
    have hbne : (schedule_hash (schedLookup schedulesAll sq) != oldHash) = false := by
      simp [bne_iff_ne]; exact heq
    simp only [processSiteUserStep, hold, Bool.true_and, hbne, Bool.false_eq_true, if_false]
  · intro hnone
    simp only [processSiteUserStep, hnone]

/-- Witness for C4: a subscriber with a stored fingerprint of a schedule
whose fresh counterpart differs gets exactly the reset-and-notify
transition. -/
theorem C4_site_change_notification_witness :
    (processSiteUserStep true [("1.1", [("10.05.2024", [("06:00", "10:00")])])] none
      { allUsers := [1], subqueue := [(1, "1.1")], notice := [],
        lastHash := [(1, "stale-hash")], lastSchedule := [], lastMarker := [],
        notifiedKeys := [(1, ["old-key"])] } 1 "1.1").2 =
      [(1, changeText "1.1" (schedLookup [("1.1", [("10.05.2024", [("06:00", "10:00")])])] "1.1") none)] := by
  have h := (C4_site_change_notification
    [("1.1", [("10.05.2024", [("06:00", "10:00")])])] none
    { allUsers := [1], subqueue := [(1, "1.1")], notice := [],
      lastHash := [(1, "stale-hash")], lastSchedule := [], lastMarker := [],
      notifiedKeys := [(1, ["old-key"])] } 1 "1.1").1 "stale-hash" (by decide)
    (by
      intro he
      have hlen : ("stale-hash".data).length = 64 := by rw [← he]; rfl
      simp at hlen)
  rw [h]

/-- **C4, counterexample to the claim as stated.**  On first observation
(no stored fingerprint) the code runs `USER_NOTIFIED_KEYS.setdefault(chat_id,
set())`: a pre-existing delivered-keys entry survives, whereas the claim
says an empty delivered-keys set is recorded. -/
theorem C4_counterexample_as_stated :
    alookup (processSiteUserStep true [] none
      { allUsers := [1], subqueue := [(1, "1.1")], notice := [], lastHash := [],
        lastSchedule := [], lastMarker := [],
        notifiedKeys := [(1, ["stale-key"])] } 1 "1.1").1.notifiedKeys 1 =
      some ["stale-key"] ∧ some ["stale-key"] ≠ some ([] : List String) := by
  refine ⟨by decide, by decide⟩

/-! ### Entity selection and unsubscription: claims C7 and C8 -/

theorem processSiteUserStep_subqueue (u : Bool) (a : List (String × DaySched))
    (m : Option String) (st : BotState) (chat : Nat) (sq : String) :
    (processSiteUserStep u a m st chat sq).1.subqueue = st.subqueue := by
  simp only [processSiteUserStep]
  split
  · rfl
  · split <;> rfl

theorem process_site_once_subqueue_aux (u : Bool) (m : Option String)
    (a : List (String × DaySched)) :
    ∀ (l : List (Nat × String)) (acc : BotState × List (Nat × String)),
      ((l.foldl (fun acc e =>
        let r := processSiteUserStep u a m acc.1 e.1 e.2
        (r.1, acc.2 ++ r.2)) acc)).1.subqueue = acc.1.subqueue := by
  intro l
  induction l with
  | nil => intro acc; rfl
  | cons e rest ih =>
    intro acc
    rw [List.foldl_cons, ih]
    exact processSiteUserStep_subqueue u a m acc.1 e.1 e.2

/-- `process_site_once` never modifies the entity-selection map. -/
theorem process_site_once_subqueue (u : Bool) (m : Option String)
    (a : List (String × DaySched)) (st : BotState) :
    (process_site_once u m a st).1.subqueue = st.subqueue :=
  process_site_once_subqueue_aux u m a st.subqueue (st, [])

/-- **C7** (amended).  When a subscriber picks an entity and the
post-selection refresh succeeds, the per-subscriber state is fully rebuilt
for the new entity: empty delivered-keys set, fingerprint and cached
schedule (and marker) of the newly selected entity.  When the refresh
*fails*, however, only the selection itself (and a `setdefault` of the
delivered-keys entry) changes: the old entity's fingerprint, cached
schedule, marker and delivered keys are all retained until the next watch
tick — the reset claimed for "every outcome" does not happen on the
failure path. -/
theorem C7_choose_subqueue_reset (chat : Nat) (sq : String) (st : BotState) :
    (∀ marker schedulesAll,
      alookup ((choose_subqueue chat sq (some (marker, schedulesAll)) st).1).subqueue chat =
          some sq ∧
      alookup ((choose_subqueue chat sq (some (marker, schedulesAll)) st).1).notifiedKeys chat =
          some [] ∧
      alookup ((choose_subqueue chat sq (some (marker, schedulesAll)) st).1).lastHash chat =
          some (schedule_hash (schedLookup schedulesAll sq)) ∧
      alookup ((choose_subqueue chat sq (some (marker, schedulesAll)) st).1).lastSchedule chat =
          some (schedLookup schedulesAll sq) ∧
      alookup ((choose_subqueue chat sq (some (marker, schedulesAll)) st).1).lastMarker chat =
          some marker) ∧
    (alookup ((choose_subqueue chat sq none st).1).subqueue chat = some sq ∧
      alookup ((choose_subqueue chat sq none st).1).lastHash chat =
        alookup st.lastHash chat ∧
      alookup ((choose_subqueue chat sq none st).1).lastSchedule chat =
        alookup st.lastSchedule chat ∧
      alookup ((choose_subqueue chat sq none st).1).lastMarker chat =
        alookup st.lastMarker chat ∧
      alookup ((choose_subqueue chat sq none st).1).notifiedKeys chat =
        some ((alookup st.notifiedKeys chat).getD [])) := by
  constructor
  · intro marker schedulesAll
    refine ⟨?_, ?_, ?_, ?_, ?_⟩
    · have h := process_site_once_subqueue false marker schedulesAll
        { register_user chat st with
          subqueue := aset (register_user chat st).subqueue chat sq,
          notifiedKeys := asetdefault (register_user chat st).notifiedKeys chat [] }
      show alookup (process_site_once false marker schedulesAll
        { register_user chat st with
          subqueue := aset (register_user chat st).subqueue chat sq,
          notifiedKeys := asetdefault (register_user chat st).notifiedKeys chat [] }).1.subqueue
        chat = some sq
      rw [h]
      exact alookup_aset_self _ _ _
    · exact alookup_aset_self _ _ _
    · exact alookup_aset_self _ _ _
    · exact alookup_aset_self _ _ _
    · exact alookup_aset_self _ _ _
  · refine ⟨alookup_aset_self _ _ _, rfl, rfl, rfl, alookup_asetdefault_self _ _ _⟩

/-- **C7, counterexample to the claim as stated.**  A subscriber carrying
the old entity's fingerprint `"h-old"`, cached schedule and a delivered
key switches to `2.1`, but the refresh fails: the delivered-keys set is
*not* cleared and fingerprint and schedule still belong to the old
entity. -/
theorem C7_counterexample_as_stated :
    alookup ((choose_subqueue 1 "2.1" none
      { allUsers := [1], subqueue := [(1, "1.1")], notice := [(1, 10)],
        lastHash := [(1, "h-old")],
        lastSchedule := [(1, [("10.05.2024", [("06:00", "10:00")])])],
        lastMarker := [(1, some "Оновлено: 10.05.2024 12:00")],
        notifiedKeys := [(1, ["delivered-key"])] }).1).notifiedKeys 1 =
      some ["delivered-key"] ∧
    alookup ((choose_subqueue 1 "2.1" none
      { allUsers := [1], subqueue := [(1, "1.1")], notice := [(1, 10)],
        lastHash := [(1, "h-old")],
        lastSchedule := [(1, [("10.05.2024", [("06:00", "10:00")])])],
        lastMarker := [(1, some "Оновлено: 10.05.2024 12:00")],
        notifiedKeys := [(1, ["delivered-key"])] }).1).lastHash 1 = some "h-old" ∧
    some ["delivered-key"] ≠ some ([] : List String) := by
  refine ⟨by decide, by decide, by decide⟩

/-- **C8** (amended).  `/stop` (and the stop button, which runs the same
sequence) removes the subscriber's selected entity, fingerprint, cached
schedule, update marker and delivered-reminder keys, and leaves every
other subscriber's entries unchanged.  The configured lead-time is *not*
removed: it survives — `register_user` even initializes it to the default
if absent — and the user stays in the known-users set. -/
theorem C8_stop_destroys_state (chat : Nat) (st : BotState) :
    alookup (cmd_stop chat st).subqueue chat = none ∧
    alookup (cmd_stop chat st).lastHash chat = none ∧
    alookup (cmd_stop chat st).lastSchedule chat = none ∧
    alookup (cmd_stop chat st).lastMarker chat = none ∧
    alookup (cmd_stop chat st).notifiedKeys chat = none ∧
    alookup (cmd_stop chat st).notice chat =
      some ((alookup st.notice chat).getD DEFAULT_NOTICE_MINUTES) ∧
    chat ∈ (cmd_stop chat st).allUsers ∧
    ∀ c, c ≠ chat →
      alookup (cmd_stop chat st).subqueue c = alookup st.subqueue c ∧
      alookup (cmd_stop chat st).lastHash c = alookup st.lastHash c ∧
      alookup (cmd_stop chat st).lastSchedule c = alookup st.lastSchedule c ∧
      alookup (cmd_stop chat st).lastMarker c = alookup st.lastMarker c ∧
      alookup (cmd_stop chat st).notifiedKeys c = alookup st.notifiedKeys c ∧
      alookup (cmd_stop chat st).notice c = alookup st.notice c ∧
      (c ∈ (cmd_stop chat st).allUsers ↔ c ∈ st.allUsers) := by
  refine ⟨alookup_apop_self _ _, alookup_apop_self _ _, alookup_apop_self _ _,
    alookup_apop_self _ _, alookup_apop_self _ _, alookup_asetdefault_self _ _ _, ?_, ?_⟩
  · show chat ∈ (if chat ∈ st.allUsers then st.allUsers else st.allUsers ++ [chat])
    split
    · next h => exact h
    · exact List.mem_append_right _ (List.mem_singleton.mpr rfl)
  · intro c hc
    refine ⟨alookup_apop_other _ _ _ hc, alookup_apop_other _ _ _ hc,
      alookup_apop_other _ _ _ hc, alookup_apop_other _ _ _ hc,
      alookup_apop_other _ _ _ hc, alookup_asetdefault_other _ _ _ _ hc, ?_⟩
    show c ∈ (if chat ∈ st.allUsers then st.allUsers else st.allUsers ++ [chat]) ↔
      c ∈ st.allUsers
    split
    · exact Iff.rfl
    · constructor
      · intro h
        rcases List.mem_append.mp h with h1 | h1
        · exact h1
        · exact absurd (List.mem_singleton.mp h1) hc
      · exact fun h => List.mem_append_left _ h

/-- Witness for C8 at a concrete state with two subscribers: subscriber
1's five entries vanish, the lead-time survives, subscriber 2 is
untouched. -/
theorem C8_stop_destroys_state_witness :
    alookup (cmd_stop 1
      { allUsers := [1, 2], subqueue := [(1, "1.1"), (2, "3.2")], notice := [(1, 30)],
        lastHash := [(1, "h1"), (2, "h2")], lastSchedule := [(1, []), (2, [])],
        lastMarker := [(1, none), (2, none)],
        notifiedKeys := [(1, ["k1"]), (2, ["k2"])] }).subqueue 1 = none ∧
    alookup (cmd_stop 1
      { allUsers := [1, 2], subqueue := [(1, "1.1"), (2, "3.2")], notice := [(1, 30)],
        lastHash := [(1, "h1"), (2, "h2")], lastSchedule := [(1, []), (2, [])],
        lastMarker := [(1, none), (2, none)],
        notifiedKeys := [(1, ["k1"]), (2, ["k2"])] }).subqueue 2 = some "3.2" := by
  constructor
  · exact (C8_stop_destroys_state 1
      { allUsers := [1, 2], subqueue := [(1, "1.1"), (2, "3.2")], notice := [(1, 30)],
        lastHash := [(1, "h1"), (2, "h2")], lastSchedule := [(1, []), (2, [])],
        lastMarker := [(1, none), (2, none)],
        notifiedKeys := [(1, ["k1"]), (2, ["k2"])] }).1
  · have h := ((C8_stop_destroys_state 1
      { allUsers := [1, 2], subqueue := [(1, "1.1"), (2, "3.2")], notice := [(1, 30)],
        lastHash := [(1, "h1"), (2, "h2")], lastSchedule := [(1, []), (2, [])],
        lastMarker := [(1, none), (2, none)],
        notifiedKeys := [(1, ["k1"]), (2, ["k2"])] }).2.2.2.2.2.2.2 2 (by decide)).1
    rw [h]
    decide

/-- **C8, counterexample to the claim as stated.**  After `/stop` the
configured lead-time is still present (the claim says it is removed along
with the whole `SubscriberState`). -/
theorem C8_counterexample_as_stated :
    alookup (cmd_stop 1
      { allUsers := [1], subqueue := [(1, "1.1")], notice := [(1, 30)],
        lastHash := [(1, "h1")], lastSchedule := [(1, [])], lastMarker := [(1, none)],
        notifiedKeys := [(1, ["k1"])] }).notice 1 = some 30 ∧
    some (30 : Nat) ≠ none := by
  refine ⟨by decide, by decide⟩

/-! ### The header scan and the fail-soft paths of the extractor (C6) -/

/-- When the header scan fails, no row reaches six exact-trimmed
(label, column) matches. -/
theorem findHeader_none_spec : ∀ (rows : List (List String)) (k : Nat),
    findHeader rows k = none →
    ∀ j, j < rows.length → (rowFound (rows.getD j [])).length < 6 := by
  intro rows
  induction rows with
  | nil => intro k _ j hj; simp at hj
  | cons row rest ih =>
    intro k h j hj
    simp only [findHeader] at h
    rcases Nat.lt_or_ge (rowFound row).length 6 with h6 | h6
    · rw [if_neg (by omega)] at h
      cases j with
      | zero => simpa using h6
      | succ j' =>
        rw [List.getD_cons_succ]
        exact ih (k + 1) h j' (by simp only [List.length_cons] at hj; omega)
    · rw [if_pos h6] at h
      cases h

/-- When the header scan started at running index `k` succeeds, it returns
the first row with at least six (label, column) matches, together with the
full match list of that row. -/
theorem findHeader_some_spec : ∀ (rows : List (List String)) (k i : Nat)
    (f : List (String × Nat)), findHeader rows k = some (i, f) →
    k ≤ i ∧ i - k < rows.length ∧ f = rowFound (rows.getD (i - k) []) ∧
      6 ≤ f.length ∧ ∀ j, j < i - k → (rowFound (rows.getD j [])).length < 6 := by
  intro rows
  induction rows with
  | nil => intro k i f h; cases h
  | cons row rest ih =>
    intro k i f h
    simp only [findHeader] at h
    rcases Nat.lt_or_ge (rowFound row).length 6 with h6 | h6
    · rw [if_neg (by omega)] at h
      obtain ⟨hk, hlen, hf, h6f, hmin⟩ := ih (k + 1) i f h
      refine ⟨by omega, by simp only [List.length_cons]; omega, ?_, h6f, ?_⟩
      · have hik : i - k = (i - (k + 1)) + 1 := by omega
        rw [hik, List.getD_cons_succ]
        exact hf
      · intro j hj
        cases j with
        | zero => simpa using h6
        | succ j' =>
          rw [List.getD_cons_succ]
          exact hmin j' (by omega)
    · rw [if_pos h6] at h
      simp only [Option.some.injEq, Prod.mk.injEq] at h
      obtain ⟨rfl, rfl⟩ := h
      exact ⟨Nat.le_refl k, by simp, by simp, h6,
        fun j hj => absurd hj (by omega)⟩

/-- **C6.**  `parse_all_schedules` fails soft: when no schedule table is
located, it returns the update marker with an empty schedules mapping; the
same holds when the header scan fails.  The header row the code actually
selects is the first grid row carrying at least **six** exact-trimmed
(label, column) matches over the labels `1.1`..`6.2`, counted with
multiplicity — not a majority of the twelve distinct labels. -/
theorem C6_parse_fail_soft (page : Page) :
    (findScheduleTable page = none →
       parse_all_schedules page = (page.updateMarker, [])) ∧
    (∀ table, findScheduleTable page = some table →
       (findHeader (htmlTableToMatrix table) 0 = none →
          parse_all_schedules page = (page.updateMarker, [])) ∧
       (∀ i f, findHeader (htmlTableToMatrix table) 0 = some (i, f) →
          i < (htmlTableToMatrix table).length ∧
          f = rowFound ((htmlTableToMatrix table).getD i []) ∧
          6 ≤ f.length ∧
          ∀ j, j < i → (rowFound ((htmlTableToMatrix table).getD j [])).length < 6)) := by
  refine ⟨?_, ?_⟩
  · intro h
    simp only [parse_all_schedules, h]
  · intro table ht
    refine ⟨?_, ?_⟩
    · intro hh
      simp only [parse_all_schedules, ht, hh]
      split <;> rfl
    · intro i f hf
      obtain ⟨_, hlen, hgf, h6, hmin⟩ :=
        findHeader_some_spec (htmlTableToMatrix table) 0 i f hf
      rw [Nat.sub_zero] at hlen hgf
      refine ⟨hlen, hgf, h6, fun j hj => hmin j (by omega)⟩

/-- **C6, witness.**  A table-less page yields the marker with an empty
mapping, and on `exPage6` the selected header row (index 1) has six
matches while the row before it has fewer. -/
theorem C6_parse_fail_soft_witness :
    parse_all_schedules exPageEmpty = (some "upd", []) ∧
    6 ≤ (rowFound ((htmlTableToMatrix exTable6).getD 1 [])).length ∧
    (rowFound ((htmlTableToMatrix exTable6).getD 0 [])).length < 6 := by
  have h1 := (C6_parse_fail_soft exPageEmpty).1 (by rfl)
  have h2 := ((C6_parse_fail_soft exPage6).2 exTable6 (by rfl)).2 1
    (rowFound ((htmlTableToMatrix exTable6).getD 1 [])) (by decide)
  exact ⟨h1, h2.2.2.1, h2.2.2.2 0 (by decide)⟩

/-- **C6, counterexample to the claim as stated.**  On `exPage6` no grid
row contains a majority (seven) of the twelve distinct entity labels, so
under the claim's header description no header exists and the extractor
would fail soft with an empty mapping — yet the code accepts the row of
six repeated `1.1` cells as the header (`len(found) >= 6` counts matches
with multiplicity) and returns a non-empty schedules mapping. -/
theorem C6_counterexample_as_stated :
    (∀ row ∈ htmlTableToMatrix exTable6, majorityDistinct row = false) ∧
    (parse_all_schedules exPage6).2 =
      [("1.1", [("10.05.2024", [("06:00", "10:00")])])] := by
  exact ⟨by decide, by decide⟩

/-! ### Entities with only skippable cells never enter the result (C9) -/

/-- A dict-update for a different key preserves `allEmpty`. -/
theorem allEmpty_updSched (sch : List (String × DaySched)) (sq k d : String)
    (ivs : List TimeRange) (hk : k ≠ sq) (h : allEmpty sch sq) :
    allEmpty (updSched sch k d ivs) sq := by
  intro p hp hps
  simp only [updSched] at hp
  obtain ⟨q, hq, rfl⟩ := List.mem_map.mp hp
  by_cases hqk : (q.1 == k) = true
  · rw [if_pos hqk] at hps
    have h1 : q.1 = sq := hps
    have h2 : q.1 = k := beq_iff_eq.mp hqk
    exact absurd (h2.symm.trans h1) hk
  · rw [if_neg hqk] at hps ⊢
    exact h q hq hps

/-- One step of the per-entity cell loop preserves `allEmpty` provided the
entity's own cell (if this is the entity's column) is skippable. -/
theorem allEmpty_processSchedRow_single (row : List String) (d sq : String)
    (p : String × Nat) (sch : List (String × DaySched))
    (hp : p.1 = sq → skippableCell row p.2 = true) (h : allEmpty sch sq) :
    allEmpty (processSchedRow [p] row d sch) sq := by
  simp only [processSchedRow, List.foldl_cons, List.foldl_nil]
  by_cases hlt : p.2 < row.length
  · rw [if_pos hlt]
    by_cases h1 : strTrim (row.getD p.2 "") = ""
    · rw [if_pos h1]; exact h
    · rw [if_neg h1]
      by_cases h2 : containsSub (strTrim (row.getD p.2 "")) "Очікується" = true
      · rw [if_pos h2]; exact h
      · rw [if_neg h2]
        by_cases h3 : (timeRangeFindall (strTrim (row.getD p.2 ""))).isEmpty = true
        · rw [if_pos h3]; exact h
        · rw [if_neg h3]
          by_cases hpsq : p.1 = sq
          · have hs := hp hpsq
            simp only [skippableCell, Bool.or_eq_true, Bool.not_eq_true',
              decide_eq_false_iff_not, beq_iff_eq] at hs
            rcases hs with ((hs | hs) | hs) | hs
            · exact absurd hlt hs
            · exact absurd hs h1
            · exact absurd hs h2
            · exact absurd hs h3
          · exact allEmpty_updSched sch sq p.1 d _ hpsq h
  · rw [if_neg hlt]; exact h

/-- The whole per-row entity loop preserves `allEmpty` when every column
mapped to the entity holds a skippable cell. -/
theorem allEmpty_processSchedRow : ∀ (colMap : List (String × Nat))
    (row : List String) (d sq : String) (sch : List (String × DaySched)),
    (∀ p ∈ colMap, p.1 = sq → skippableCell row p.2 = true) →
    allEmpty sch sq → allEmpty (processSchedRow colMap row d sch) sq := by
  intro colMap
  induction colMap with
  | nil => intro row d sq sch _ h; exact h
  | cons p cm ih =>
    intro row d sq sch hc h
    have h1 : allEmpty (processSchedRow [p] row d sch) sq :=
      allEmpty_processSchedRow_single row d sq p sch
        (fun hpq => hc p (List.mem_cons_self p cm) hpq) h
    exact ih row d sq (processSchedRow [p] row d sch)
      (fun q hq => hc q (List.mem_cons_of_mem p hq)) h1

/-- The row walk below the header preserves `allEmpty` when every data
row's cell in each of the entity's columns is skippable. -/
theorem allEmpty_extractRows (colMap : List (String × Nat)) (sq : String) :
    ∀ (rows : List (List String)) (cur : Option String)
      (sch : List (String × DaySched)),
    (∀ row ∈ rows, ∀ p ∈ colMap, p.1 = sq → skippableCell row p.2 = true) →
    allEmpty sch sq → allEmpty (extractRows colMap rows cur sch) sq := by
  intro rows
  induction rows with
  | nil => intro cur sch _ h; exact h
  | cons row rest ih =>
    intro cur sch hc h
    simp only [extractRows]
    split
    · exact ih _ sch (fun r hr => hc r (List.mem_cons_of_mem row hr)) h
    · exact ih _ _ (fun r hr => hc r (List.mem_cons_of_mem row hr))
        (allEmpty_processSchedRow colMap row _ sq sch
          (hc row (List.mem_cons_self row rest)) h)

/-- The initial schedules dict maps every key to the empty day map. -/
theorem allEmpty_init (colMap : List (String × Nat)) (sq : String) :
    allEmpty (colMap.map (fun p => (p.1, ([] : DaySched)))) sq := by
  intro p hp _
  obtain ⟨q, _, rfl⟩ := List.mem_map.mp hp
  rfl

/-- The per-day dedup pass preserves `allEmpty`. -/
theorem allEmpty_dedup (sch : List (String × DaySched)) (sq : String)
    (h : allEmpty sch sq) : allEmpty (dedupSchedules sch) sq := by
  intro p hp hps
  simp only [dedupSchedules] at hp
  obtain ⟨q, hq, rfl⟩ := List.mem_map.mp hp
  have hq2 : q.2 = [] := h q hq hps
  simp [hq2]

/-- After the non-empty filter, an `allEmpty` key is gone entirely. -/
theorem filterNonEmpty_find_none (sch : List (String × DaySched)) (sq : String)
    (h : allEmpty sch sq) :
    (filterNonEmpty sch).find? (fun q => q.1 == sq) = none := by
  rw [List.find?_eq_none]
  intro x hx hbeq
  simp only [filterNonEmpty, List.mem_filter] at hx
  obtain ⟨hmem, hany⟩ := hx
  have hx2 : x.2 = [] := h x hmem (beq_iff_eq.mp hbeq)
  rw [hx2] at hany
  simp at hany

/-- The step of `buildColMap` never shrinks a non-empty map to empty. -/
theorem buildColMap_go_ne_nil : ∀ (found m : List (String × Nat)), m ≠ [] →
    found.foldl (fun m p =>
      if (m.find? (fun q => q.1 == p.1)).isSome then
        m.map (fun q => if q.1 == p.1 then (q.1, p.2) else q)
      else m ++ [p]) m ≠ [] := by
  intro found
  induction found with
  | nil => intro m hm; simpa using hm
  | cons p rest ih =>
    intro m hm
    simp only [List.foldl_cons]
    apply ih
    split
    · simpa using hm
    · simp

/-- A non-empty match list yields a non-empty column map. -/
theorem buildColMap_ne_nil (found : List (String × Nat)) (h : found ≠ []) :
    buildColMap found ≠ [] := by
  obtain ⟨p, rest, rfl⟩ := List.exists_cons_of_ne_nil h
  simp only [buildColMap, List.foldl_cons]
  exact buildColMap_go_ne_nil rest _ (by simp)

/-- Every entry of the extractor's result owns at least one date with a
non-empty interval list (the final filter guarantees it). -/
theorem parse_mem_spec (page : Page) (p : String × DaySched)
    (hp : p ∈ (parse_all_schedules page).2) :
    ∃ d ivs, (d, ivs) ∈ p.2 ∧ ivs ≠ [] := by
  simp only [parse_all_schedules] at hp
  split at hp
  · simp at hp
  · split at hp
    · simp at hp
    · split at hp
      · simp at hp
      · split at hp
        · simp at hp
        · simp only [filterNonEmpty, List.mem_filter] at hp
          obtain ⟨_, hany⟩ := hp
          obtain ⟨q, hq, hne⟩ := List.any_eq_true.mp hany
          refine ⟨q.1, q.2, by rw [Prod.mk.eta]; exact hq, fun hnil => ?_⟩
          rw [hnil] at hne
          simp at hne

/-- **C9.**  An entity key occurs in the extractor's result only with at
least one extracted interval under some date; an absent entity looks up to
the empty day map, whose fingerprint is the empty schedule's; and an
entity all of whose cells are skippable (blank, `Очікується`, or without
any `HH:MM-HH:MM` occurrence) is entirely absent from the result. -/
theorem C9_blank_entities_absent (page : Page) (sq : String) :
    (∀ p ∈ (parse_all_schedules page).2, ∃ d ivs, (d, ivs) ∈ p.2 ∧ ivs ≠ []) ∧
    ((parse_all_schedules page).2.find? (fun q => q.1 == sq) = none →
       schedLookup (parse_all_schedules page).2 sq = [] ∧
       schedule_hash (schedLookup (parse_all_schedules page).2 sq) =
         schedule_hash []) ∧
    (∀ table hIdx found, findScheduleTable page = some table →
       findHeader (htmlTableToMatrix table) 0 = some (hIdx, found) →
       (∀ row ∈ (htmlTableToMatrix table).drop (hIdx + 1),
          ∀ p ∈ buildColMap found, p.1 = sq → skippableCell row p.2 = true) →
       (parse_all_schedules page).2.find? (fun q => q.1 == sq) = none) := by
  refine ⟨fun p hp => parse_mem_spec page p hp, ?_, ?_⟩
  · intro hnone
    have h1 : schedLookup (parse_all_schedules page).2 sq = [] := by
      simp only [schedLookup, hnone]
    exact ⟨h1, by rw [h1]⟩
  · intro table hIdx found ht hf hc
    have h6 := (findHeader_some_spec (htmlTableToMatrix table) 0 hIdx found hf).2.2.2.1
    have hne : (htmlTableToMatrix table).isEmpty = false := by
      cases hm : htmlTableToMatrix table with
      | nil => rw [hm] at hf; cases hf
      | cons a l => rfl
    have hfoundne : found ≠ [] := by
      intro h0; rw [h0] at h6; simp at h6
    have hcm : (buildColMap found).isEmpty = false := by
      cases hb : buildColMap found with
      | nil => exact absurd hb (buildColMap_ne_nil found hfoundne)
      | cons a l => rfl
    simp only [parse_all_schedules, ht, hne, hf, hcm, Bool.false_eq_true,
      if_false]
    exact filterNonEmpty_find_none _ sq (allEmpty_dedup _ sq
      (allEmpty_extractRows (buildColMap found) sq _ none _ hc
        (allEmpty_init _ sq)))

/-- **C9, witness.**  On `exPage9` entity `1.2` (placeholder cell only) is
absent: the lookup is empty and its fingerprint equals the empty
schedule's, while the surviving entry `1.1` carries a real interval. -/
theorem C9_blank_entities_absent_witness :
    (parse_all_schedules exPage9).2.find? (fun q => q.1 == "1.2") = none ∧
    schedLookup (parse_all_schedules exPage9).2 "1.2" = [] ∧
    schedule_hash (schedLookup (parse_all_schedules exPage9).2 "1.2") =
      schedule_hash [] ∧
    (∃ d ivs, (d, ivs) ∈
      [("10.05.2024", [(("06:00" : String), ("10:00" : String))])] ∧ ivs ≠ []) := by
  have h := C9_blank_entities_absent exPage9 "1.2"
  have hnone := h.2.2 exTable9 1 (rowFound ((htmlTableToMatrix exTable9).getD 1 []))
    (by rfl) (by decide) (by decide)
  have hmem := (C9_blank_entities_absent exPage9 "1.2").1
    ("1.1", [("10.05.2024", [("06:00", "10:00")])]) (by decide)
  exact ⟨hnone, (h.2.1 hnone).1, (h.2.1 hnone).2, hmem⟩
